import Mathlib

/-!
Shallow embedding of the LyricSync core: the LRC codec (`parseLrc`, `formatLrc`)
and the retrying transcription client (`transcribeAudio`) from `src/App.jsx`.

Strings are modelled as `List Char`; JavaScript numbers as `ℚ` (all timestamp
arithmetic here is on small exact decimal fractions, where IEEE doubles agree
with the rationals on every comparison and equality the code performs);
`null`/absent input as `Option`; thrown errors as an explicit `Outcome` sum.
-/

namespace LyricSync

/-- The whitespace class used by JavaScript `trim` and the regex `\s`:
tab, LF, VT, FF, CR, space, NBSP, Ogham space, the U+2000 block, LS, PS,
narrow NBSP, medium mathematical space, ideographic space, BOM/ZWNBSP. -/
def isWs (c : Char) : Bool :=
  c = ' ' || c = '\t' || c = '\n' || c = '\r' || c = Char.ofNat 11 || c = Char.ofNat 12
    || c = Char.ofNat 160 || c = Char.ofNat 5760
    || (8192 ≤ c.toNat && c.toNat ≤ 8202)
    || c = Char.ofNat 8232 || c = Char.ofNat 8233
    || c = Char.ofNat 8239 || c = Char.ofNat 8287 || c = Char.ofNat 12288
    || c = Char.ofNat 65279

/-- The line-terminator class that the regex wildcard `.` does not match:
LF, CR, LS, PS. -/
def isLineTerm (c : Char) : Bool :=
  c = '\n' || c = '\r' || c = Char.ofNat 8232 || c = Char.ofNat 8233

/-- Drop leading whitespace (first half of JS `trim`). -/
def trimLeft (l : List Char) : List Char := l.dropWhile isWs

/-- Drop trailing whitespace (second half of JS `trim`). -/
def trimRight (l : List Char) : List Char := (l.reverse.dropWhile isWs).reverse

/-- JavaScript `String.prototype.trim`: drop leading and trailing whitespace. -/
def jsTrim (l : List Char) : List Char := trimRight (trimLeft l)

/-- Numeric value of a digit string (the digits-only fragment of JS `parseInt`). -/
def digitsVal (l : List Char) : ℕ :=
  l.foldl (fun a c => a * 10 + (c.toNat - 48)) 0

/-- JS `parseInt(s, 10)` as exercised by the codec: reads the leading run of
decimal digits. (Every string the codec passes in is a pure digit string.) -/
def parseIntJS (l : List Char) : ℕ :=
  digitsVal (l.takeWhile Char.isDigit)

/-- JS `String.prototype.split(sep)` for a single-character separator. -/
def splitOnChar (sep : Char) : List Char → List (List Char)
  | [] => [[]]
  | c :: r =>
    if c = sep then [] :: splitOnChar sep r
    else
      match splitOnChar sep r with
      | [] => [[c]]
      | h :: t => (c :: h) :: t

/-- `lrcContent.split('\n')` from `parseLrc`. -/
def splitLines (l : List Char) : List (List Char) := splitOnChar '\n' l

/-- JS `Array.prototype.join('\n')` from `formatLrc`. -/
def joinLines : List (List Char) → List Char
  | [] => []
  | [x] => x
  | x :: xs => x ++ '\n' :: joinLines xs

/-- One parsed LRC line: the object `{ timestamp, text, lrcTime }` built by
`parseLrc` (`timestamp` = seconds, `text` = trimmed remainder, `lrcTime` =
the bracketed tag, kept verbatim). -/
structure Line where
  timestamp : ℚ
  text : List Char
  lrcTime : List Char
deriving DecidableEq, Repr

/-- Attempt to match the regex `\[\d{2}:\d{2}(?:\.\d{1,3})?\]` at the start of
the list, returning the matched tag (group 1, brackets included) and the rest
of the line (group 2).  Greedy `\d{1,3}` plus the mandatory closing `\]` means
a fractional part matches exactly when the maximal digit run after the dot has
length 1–3 and is followed immediately by `]`.  Group 2 is `(.*)`, whose `.`
does not cross a line terminator, hence the `takeWhile`. -/
def matchTagAt : List Char → Option (List Char × List Char)
  | l0 :: l1 :: l2 :: l3 :: l4 :: l5 :: rest =>
    if l0 = '[' ∧ l1.isDigit ∧ l2.isDigit ∧ l3 = ':' ∧ l4.isDigit ∧ l5.isDigit then
      match rest with
      | [] => none
      | r0 :: r =>
        if r0 = ']' then
          some ([l0, l1, l2, l3, l4, l5, ']'], r.takeWhile (fun c => !isLineTerm c))
        else if r0 = '.' then
          let ds := (r.takeWhile Char.isDigit).take 3
          if ds ≠ [] ∧ (r.drop ds.length).head? = some ']' then
            some ([l0, l1, l2, l3, l4, l5, '.'] ++ ds ++ [']'],
              ((r.drop ds.length).tail).takeWhile (fun c => !isLineTerm c))
          else none
        else none
    else none
  | _ => none

/-- Leftmost regex match over the whole (trimmed) line: `line.match(lineRegex)`.
The regex is unanchored, so matching is retried at each successive start
position, and everything before the first match is discarded. -/
def findTag : List Char → Option (List Char × List Char)
  | [] => none
  | l@(_ :: t) =>
    match matchTagAt l with
    | some p => some p
    | none => findTag t

/-- Timestamp extraction from the matched tag, exactly as in `parseLrc`:
slice off the brackets, `split(':')` into minutes and rest, `split('.')` into
seconds and optional milliseconds, then
`minutes*60 + seconds + parseInt(ms || '0') / (ms.length === 3 ? 1000 : 100)`. -/
def tsOf (tag : List Char) : ℚ :=
  let inner := (tag.drop 1).dropLast
  let parts := splitOnChar ':' inner
  let minutes := parts.headD []
  let rest := (parts.drop 1).headD []
  let sp := splitOnChar '.' rest
  let seconds := sp.headD []
  let msOpt := (sp.drop 1).head?
  let msVal := msOpt.getD []
  let msStr := if msVal = [] then ['0'] else msVal
  let divisor : ℚ := if msOpt.map List.length = some 3 then 1000 else 100
  (parseIntJS minutes : ℚ) * 60 + (parseIntJS seconds : ℚ) + (parseIntJS msStr : ℚ) / divisor

/-- The per-line body of `parseLrc`'s `.map`: trim the line, match the tag
regex, and build the `{ timestamp, text, lrcTime }` object (or `null`). -/
def processLine (y : List Char) : Option Line :=
  match findTag (jsTrim y) with
  | none => none
  | some (tag, rest) => some ⟨tsOf tag, jsTrim rest, tag⟩

/-- Comparator of the final `.sort((a, b) => a.timestamp - b.timestamp)`;
`Array.prototype.sort` is stable, so any stable sort under this
(total, transitive) `≤` is an exact model. -/
def lineLe (a b : Line) : Bool := a.timestamp ≤ b.timestamp

/-- Insert a line before the first element not below it (stable insertion). -/
def jsInsert (x : Line) : List Line → List Line
  | [] => [x]
  | y :: ys => if lineLe x y then x :: y :: ys else y :: jsInsert x ys

/-- The stable `Array.prototype.sort((a, b) => a.timestamp - b.timestamp)`,
modelled as stable insertion sort (stable sorting under a total preorder is
unique, so this is observationally the engine's sort). -/
def jsSort : List Line → List Line
  | [] => []
  | x :: xs => jsInsert x (jsSort xs)

/-- `parseLrc(lrcContent)` from `src/App.jsx`: falsy input (null / empty
string) yields `[]`; otherwise split into lines, map the matcher over each
line, drop the failures, and stable-sort by timestamp. -/
def parseLrc (input : Option (List Char)) : List Line :=
  match input with
  | none => []
  | some [] => []
  | some l => jsSort ((splitLines l).filterMap processLine)

/-- The per-line rendering `${line.lrcTime}${line.text}` used by `formatLrc`. -/
def render (x : Line) : List Char := x.lrcTime ++ x.text

/-- `formatLrc(parsedLines)` from `src/App.jsx`: concatenate tag and text per
line and join with newlines, in the sequence's current order. -/
def formatLrc (doc : List Line) : List Char :=
  joinLines (doc.map render)

/-! ### Transcription client -/

/-- The opening fence marker (three backticks then `lrc`) matched by the
cleanup regex. -/
def fenceLrc : List Char := [Char.ofNat 96, Char.ofNat 96, Char.ofNat 96, 'l', 'r', 'c']

/-- A bare triple-backtick marker. -/
def fence3 : List Char := [Char.ofNat 96, Char.ofNat 96, Char.ofNat 96]

/-- Length of the leading whitespace run. -/
def countWs (l : List Char) : ℕ := (l.takeWhile isWs).length

/-- Length of the regex match (if any) of `/```lrc\s*|\s*```/` anchored at the
start of the list.  The first alternative is tried first; the second, with its
greedy `\s*`, succeeds exactly when the maximal leading whitespace run is
followed immediately by three backticks. -/
def matchFenceAt (l : List Char) : Option ℕ :=
  if l.take 6 = fenceLrc then some (6 + countWs (l.drop 6))
  else if (l.drop (countWs l)).take 3 = fence3 then some (countWs l + 3) else none

theorem countWs_le (l : List Char) : countWs l ≤ l.length := by
  simpa [countWs] using List.Sublist.length_le (List.takeWhile_sublist isWs)

theorem matchFenceAt_pos {l : List Char} {k : ℕ} (h : matchFenceAt l = some k) : 1 ≤ k := by
  unfold matchFenceAt at h
  split at h
  · simp only [Option.some.injEq] at h
    omega
  · split at h
    · simp only [Option.some.injEq] at h
      omega
    · exact absurd h (by simp)

theorem matchFenceAt_le {l : List Char} {k : ℕ} (h : matchFenceAt l = some k) :
    k ≤ l.length := by
  unfold matchFenceAt at h
  split at h
  next h6 =>
    simp only [Option.some.injEq] at h
    have h6' : l.length ≥ 6 := by
      have := congrArg List.length h6
      simp only [List.length_take, fenceLrc] at this
      simp at this
      omega
    have hw := countWs_le (l.drop 6)
    simp only [List.length_drop] at hw
    omega
  next =>
    split at h
    next h3 =>
      simp only [Option.some.injEq] at h
      have hw := countWs_le l
      have h3' : 3 ≤ l.length - countWs l := by
        have := congrArg List.length h3
        simp only [List.length_take, List.length_drop, fence3, List.length_cons,
          List.length_nil] at this
        omega
      omega
    next => exact absurd h (by simp)

/-- The global replace `text.replace(/```lrc\s*|\s*```/g, '')`: scan left to
right, removing each match and resuming after it. -/
def stripFences : List Char → List Char
  | [] => []
  | c :: rest =>
    match h : matchFenceAt (c :: rest) with
    | some k => stripFences ((c :: rest).drop k)
    | none => c :: stripFences rest
termination_by l => l.length
decreasing_by
  · have h1 := matchFenceAt_pos h
    simp only [List.length_drop, List.length_cons]
    omega
  · simp

/-- A remote interaction outcome for one `fetch`: either the promise rejects
(network error) or an HTTP response arrives, carrying the status, the optional
`errorBody.error?.message`, and the optional
`candidates[0].content.parts[0].text`. -/
inductive FetchResult where
  | netError (msg : List Char)
  | response (status : ℕ) (errMsg : Option (List Char)) (text : Option (List Char))
deriving DecidableEq, Repr

/-- The terminal outcome of `transcribeAudio`: the returned cleaned text, or
the message of the thrown `Error`. -/
inductive Outcome where
  | ok (text : List Char)
  | error (msg : List Char)
deriving DecidableEq, Repr

/-- Full observable behaviour of one `transcribeAudio` call: terminal outcome,
number of fetch attempts performed, and the backoff delays (ms) slept, in
order. -/
structure RunResult where
  outcome : Outcome
  attempts : ℕ
  delays : List ℚ
deriving DecidableEq, Repr

/-- `response.ok`: status in the 200–299 range. -/
def statusOk (st : ℕ) : Bool := 200 ≤ st && st < 300

/-- The message thrown on a non-ok response with no remote-supplied message:
`API request failed with status ${status}`. -/
def statusFailMsg (st : ℕ) : List Char :=
  "API request failed with status ".data ++ (Nat.repr st).data

/-- The message thrown on a falsy `text` field. -/
def emptyMsg : List Char := "Received an empty response from the AI model.".data

/-- The message thrown if the loop is never entered (`maxRetries = 0`). -/
def unknownMsg : List Char := "Unknown error during transcription process.".data

/-- The wrapper thrown from the `catch` on the final attempt:
`Failed to transcribe audio after ${maxRetries} attempts: ${error.message}`. -/
def wrapFail (maxRetries : ℕ) (m : List Char) : List Char :=
  "Failed to transcribe audio after ".data ++ (Nat.repr maxRetries).data
    ++ " attempts: ".data ++ m

/-- What one loop iteration decides before the `catch`: retry with backoff
(status 429 and not the last attempt), throw an error, or return cleaned
text. -/
inductive StepRes where
  | retry429
  | throwErr (m : List Char)
  | success (t : List Char)

/-- One iteration body of the `for` loop in `transcribeAudio`, given the fetch
result of this attempt and whether this is the last attempt
(`i === maxRetries - 1`). -/
def attemptStep (r : FetchResult) (last : Bool) : StepRes :=
  match r with
  | .netError m => .throwErr m
  | .response st em tx =>
    if st = 429 && !last then .retry429
    else if !(statusOk st) then .throwErr (em.getD (statusFailMsg st))
    else if tx = none ∨ tx = some [] then .throwErr emptyMsg
    else .success (jsTrim (stripFences (tx.getD [])))

/-- The retry loop, recursing on the number of remaining attempts `n`
(invariant at every call: `i + n = maxR`, so `n = 0` inside an iteration body
means `i = maxR - 1`).  A swallowed error (`catch` on a non-final attempt)
continues immediately; a 429 retry also records its backoff delay
`2^i * 1000 + jitter i`. -/
def transcribeGo (resp : ℕ → FetchResult) (jitter : ℕ → ℚ) (maxR : ℕ) :
    ℕ → ℕ → RunResult
  | 0, _ => ⟨.error unknownMsg, 0, []⟩
  | n + 1, i =>
    match attemptStep (resp i) (n == 0) with
    | .success t => ⟨.ok t, 1, []⟩
    | .retry429 =>
      let r := transcribeGo resp jitter maxR n (i + 1)
      ⟨r.outcome, r.attempts + 1, ((2 : ℚ) ^ i * 1000 + jitter i) :: r.delays⟩
    | .throwErr m =>
      if n == 0 then ⟨.error (wrapFail maxR m), 1, []⟩
      else
        let r := transcribeGo resp jitter maxR n (i + 1)
        ⟨r.outcome, r.attempts + 1, r.delays⟩

/-- `transcribeAudio(base64AudioData, mimeType, maxRetries)` from
`src/App.jsx`, abstracted over the endpoint behaviour per attempt (`resp`)
and the `Math.random() * 1000` jitter drawn before each backoff (`jitter`). -/
def transcribeAudio (resp : ℕ → FetchResult) (jitter : ℕ → ℚ)
    (maxRetries : ℕ) : RunResult :=
  transcribeGo resp jitter maxRetries maxRetries 0

/-! ### Lemmas about `trim` -/

theorem head?_dropWhile {p : Char → Bool} {l : List Char} {c : Char}
    (h : (l.dropWhile p).head? = some c) : p c = false := by
  induction l with
  | nil => simp at h
  | cons a t ih =>
    rw [List.dropWhile_cons] at h
    by_cases hp : p a
    · rw [if_pos hp] at h
      exact ih h
    · rw [if_neg hp] at h
      simp only [List.head?_cons, Option.some.injEq] at h
      subst h
      simpa using hp

theorem trimLeft_eq_self {l : List Char}
    (h : ∀ c, l.head? = some c → isWs c = false) : trimLeft l = l := by
  cases l with
  | nil => rfl
  | cons a t =>
    have := h a (by simp)
    simp [trimLeft, List.dropWhile_cons, this]

theorem trimLeft_head?_not_ws {l : List Char} {c : Char}
    (h : (trimLeft l).head? = some c) : isWs c = false :=
  head?_dropWhile h

theorem trimRight_getLast?_not_ws {l : List Char} {c : Char}
    (h : (trimRight l).getLast? = some c) : isWs c = false := by
  rw [trimRight, List.getLast?_reverse] at h
  exact head?_dropWhile h

theorem trimRight_eq_self {l : List Char}
    (h : ∀ c, l.getLast? = some c → isWs c = false) : trimRight l = l := by
  have : l.reverse.dropWhile isWs = l.reverse := by
    cases hr : l.reverse with
    | nil => simp
    | cons a t =>
      have ha : l.getLast? = some a := by
        rw [← List.head?_reverse, hr]
        simp
      rw [List.dropWhile_cons, h a ha]
      simp
  rw [trimRight, this, List.reverse_reverse]

theorem trimRight_eq_nil_iff {l : List Char} :
    trimRight l = [] ↔ ∀ c ∈ l, isWs c = true := by
  rw [trimRight]
  constructor
  · intro h c hc
    have : l.reverse.dropWhile isWs = [] := by
      have := congrArg List.reverse h
      simpa using this
    have := List.dropWhile_eq_nil_iff.mp this
    exact this c (by simpa using hc)
  · intro h
    have : l.reverse.dropWhile isWs = [] :=
      List.dropWhile_eq_nil_iff.mpr (fun c hc => h c (by simpa using hc))
    simp [this]

theorem trimRight_cons_of_not_ws {c : Char} {t : List Char} (hc : isWs c = false) :
    trimRight (c :: t) = c :: trimRight t := by
  rw [trimRight, trimRight, List.reverse_cons, List.dropWhile_append]
  by_cases he : t.reverse.dropWhile isWs = []
  · simp [he, hc]
  · simp [he]

theorem trimRight_cons_of_ne_nil {c : Char} {t : List Char} (ht : trimRight t ≠ []) :
    trimRight (c :: t) = c :: trimRight t := by
  have he : t.reverse.dropWhile isWs ≠ [] := by
    intro h
    exact ht (by simp [trimRight, h])
  rw [trimRight, trimRight, List.reverse_cons, List.dropWhile_append]
  simp [he]

theorem trimLeft_trimRight_comm (l : List Char) :
    trimLeft (trimRight l) = trimRight (trimLeft l) := by
  induction l with
  | nil => rfl
  | cons c t ih =>
    by_cases hc : isWs c
    · by_cases he : trimRight t = []
      · have hall : ∀ x ∈ (c :: t), isWs x = true := by
          intro x hx
          rcases List.mem_cons.mp hx with rfl | hx
          · exact hc
          · exact trimRight_eq_nil_iff.mp he x hx
        rw [trimRight_eq_nil_iff.mpr hall]
        have : trimLeft (c :: t) = trimLeft t := by simp [trimLeft, List.dropWhile_cons, hc]
        rw [this, ← ih, he]
      · rw [trimRight_cons_of_ne_nil he]
        have h1 : trimLeft (c :: trimRight t) = trimLeft (trimRight t) := by
          simp [trimLeft, List.dropWhile_cons, hc]
        have h2 : trimLeft (c :: t) = trimLeft t := by
          simp [trimLeft, List.dropWhile_cons, hc]
        rw [h1, h2, ih]
    · have hc' : isWs c = false := by simpa using hc
      rw [trimRight_cons_of_not_ws hc']
      have h1 : trimLeft (c :: trimRight t) = c :: trimRight t := by
        simp [trimLeft, List.dropWhile_cons, hc']
      have h2 : trimLeft (c :: t) = c :: t := by
        simp [trimLeft, List.dropWhile_cons, hc']
      rw [h1, h2, trimRight_cons_of_not_ws hc']

theorem trimRight_idem (l : List Char) : trimRight (trimRight l) = trimRight l := by
  by_cases he : trimRight l = []
  · rw [he]; rfl
  · exact trimRight_eq_self (fun c hcl => trimRight_getLast?_not_ws hcl)

theorem jsTrim_trimRight (l : List Char) : jsTrim (trimRight l) = jsTrim l := by
  rw [jsTrim, jsTrim, trimLeft_trimRight_comm, trimRight_idem]

theorem jsTrim_ws_cons {c : Char} {l : List Char} (hc : isWs c = true) :
    jsTrim (c :: l) = jsTrim l := by
  rw [jsTrim, jsTrim]
  have : trimLeft (c :: l) = trimLeft l := by simp [trimLeft, List.dropWhile_cons, hc]
  rw [this]

theorem jsTrim_eq_self {l : List Char}
    (h1 : ∀ c, l.head? = some c → isWs c = false)
    (h2 : ∀ c, l.getLast? = some c → isWs c = false) : jsTrim l = l := by
  rw [jsTrim, trimLeft_eq_self h1, trimRight_eq_self h2]

theorem jsTrim_getLast?_not_ws {l : List Char} {c : Char}
    (h : (jsTrim l).getLast? = some c) : isWs c = false :=
  trimRight_getLast?_not_ws h

theorem jsTrim_head?_not_ws {l : List Char} {c : Char}
    (h : (jsTrim l).head? = some c) : isWs c = false := by
  rw [jsTrim, ← trimLeft_trimRight_comm] at h
  exact trimLeft_head?_not_ws h

theorem jsTrim_idem (l : List Char) : jsTrim (jsTrim l) = jsTrim l := by
  by_cases he : jsTrim l = []
  · rw [he]; rfl
  · exact jsTrim_eq_self (fun c hc => jsTrim_head?_not_ws hc)
      (fun c hc => jsTrim_getLast?_not_ws hc)

theorem trimRight_append {a b : List Char}
    (ha : ∀ c, a.getLast? = some c → isWs c = false) :
    trimRight (a ++ b) = a ++ trimRight b := by
  induction a with
  | nil => simp
  | cons c t ih =>
    cases t with
    | nil =>
      have hc : isWs c = false := ha c (by simp)
      by_cases hb : trimRight b = []
      · rw [hb]
        have : trimRight ([c] ++ b) = trimRight [c] := by
          rw [trimRight, trimRight, List.reverse_append, List.dropWhile_append]
          have : b.reverse.dropWhile isWs = [] := by
            have := trimRight_eq_nil_iff.mp hb
            exact List.dropWhile_eq_nil_iff.mpr (fun x hx => this x (by simpa using hx))
          simp [this]
        rw [this]
        simp [trimRight, List.dropWhile_cons, hc]
      · rw [List.singleton_append, trimRight_cons_of_ne_nil hb]
        rfl
    | cons d t' =>
      have hlast : (d :: t').getLast? = (c :: d :: t').getLast? := by
        simp [List.getLast?_cons_cons]
      have ih' := ih (fun x hx => ha x (by rw [← hlast]; exact hx))
      by_cases hne : trimRight ((d :: t') ++ b) = []
      · exfalso
        have := trimRight_eq_nil_iff.mp hne
        have hd : (d :: t').getLast? = some ((d :: t').getLast (by simp)) := by
          simp [List.getLast?_eq_getLast]
        have hmem : (d :: t').getLast (by simp) ∈ (d :: t') := List.getLast_mem _
        have hws := this _ (List.mem_append_left b hmem)
        have := ha _ (by rw [← hlast]; exact hd)
        rw [this] at hws
        exact Bool.false_ne_true hws
      · rw [List.cons_append, trimRight_cons_of_ne_nil hne, ih']
        rfl

theorem jsTrim_append {a b : List Char} (hne : a ≠ [])
    (h1 : ∀ c, a.head? = some c → isWs c = false)
    (h2 : ∀ c, a.getLast? = some c → isWs c = false) :
    jsTrim (a ++ b) = a ++ trimRight b := by
  rw [jsTrim]
  have : trimLeft (a ++ b) = a ++ b := by
    cases a with
    | nil => exact absurd rfl hne
    | cons c t =>
      have := h1 c (by simp)
      simp [trimLeft, List.dropWhile_cons, this]
  rw [this, trimRight_append h2]

/-! ### Lemmas about `split` and `join` -/

theorem splitOnChar_ne_nil (sep : Char) (l : List Char) : splitOnChar sep l ≠ [] := by
  induction l with
  | nil => simp [splitOnChar]
  | cons c r ih =>
    rw [splitOnChar]
    by_cases hc : c = sep
    · simp [hc]
    · simp only [hc, if_false]
      cases hr : splitOnChar sep r with
      | nil => exact absurd hr ih
      | cons h t => simp

theorem mem_splitOnChar_not_sep {sep : Char} {l : List Char} :
    ∀ x ∈ splitOnChar sep l, sep ∉ x := by
  induction l with
  | nil =>
    intro x hx
    simp [splitOnChar] at hx
    simp [hx]
  | cons c r ih =>
    intro x hx
    rw [splitOnChar] at hx
    by_cases hc : c = sep
    · simp only [hc, if_true, List.mem_cons] at hx
      rcases hx with rfl | hx
      · simp
      · exact ih x hx
    · simp only [hc, if_false] at hx
      cases hr : splitOnChar sep r with
      | nil => exact absurd hr (splitOnChar_ne_nil sep r)
      | cons hh tt =>
        rw [hr] at hx
        rcases List.mem_cons.mp hx with rfl | hx
        · intro hmem
          rcases List.mem_cons.mp hmem with rfl | hmem
          · exact hc rfl
          · exact ih hh (by rw [hr]; exact List.mem_cons_self hh tt) hmem
        · exact ih x (by rw [hr]; exact List.mem_cons_of_mem hh hx)

theorem splitOnChar_of_not_mem {sep : Char} {l : List Char} (h : sep ∉ l) :
    splitOnChar sep l = [l] := by
  induction l with
  | nil => rfl
  | cons c r ih =>
    have hc : ¬ c = sep := fun hcc => h (by simp [hcc])
    have hr : sep ∉ r := fun hrr => h (List.mem_cons_of_mem c hrr)
    rw [splitOnChar]
    simp only [hc, if_false, ih hr]

theorem splitOnChar_append {sep : Char} {a : List Char} (b : List Char) (h : sep ∉ a) :
    splitOnChar sep (a ++ sep :: b) = a :: splitOnChar sep b := by
  induction a with
  | nil => simp [splitOnChar]
  | cons c r ih =>
    have hc : ¬ c = sep := fun hcc => h (by simp [hcc])
    have hr : sep ∉ r := fun hrr => h (List.mem_cons_of_mem c hrr)
    rw [List.cons_append, splitOnChar]
    simp only [hc, if_false, ih hr]

theorem mem_splitLines_no_newline {l : List Char} :
    ∀ x ∈ splitLines l, '\n' ∉ x :=
  mem_splitOnChar_not_sep

theorem joinLines_cons_cons (x y : List Char) (t : List (List Char)) :
    joinLines (x :: y :: t) = x ++ '\n' :: joinLines (y :: t) := by
  rfl

theorem splitLines_joinLines {xs : List (List Char)} (hne : xs ≠ [])
    (h : ∀ x ∈ xs, '\n' ∉ x) : splitLines (joinLines xs) = xs := by
  induction xs with
  | nil => exact absurd rfl hne
  | cons x t ih =>
    cases t with
    | nil =>
      show splitLines (joinLines [x]) = [x]
      have : joinLines [x] = x := rfl
      rw [this]
      exact splitOnChar_of_not_mem (h x (by simp))
    | cons y tt =>
      rw [joinLines_cons_cons]
      rw [splitLines, splitOnChar_append _ (h x (by simp))]
      have := ih (by simp) (fun z hz => h z (List.mem_cons_of_mem x hz))
      rw [splitLines] at this
      rw [this]

theorem joinLines_ne_nil {x : List Char} {t : List (List Char)} (hx : x ≠ []) :
    joinLines (x :: t) ≠ [] := by
  cases t with
  | nil => exact hx
  | cons y tt =>
    rw [joinLines_cons_cons]
    simp [hx]

/-! ### Lemmas about the tag matcher -/

/-- The exact shape of a string matched by group 1 of the line regex:
`[dd:dd]` or `[dd:dd.d{1,3}]`. -/
def TagShape (t : List Char) : Prop :=
  (∃ a b c d, (a.isDigit = true ∧ b.isDigit = true ∧ c.isDigit = true ∧ d.isDigit = true)
    ∧ t = ['[', a, b, ':', c, d, ']'])
  ∨ (∃ a b c d ds, (a.isDigit = true ∧ b.isDigit = true ∧ c.isDigit = true ∧ d.isDigit = true)
    ∧ ds ≠ [] ∧ ds.length ≤ 3 ∧ (∀ x ∈ ds, x.isDigit = true)
    ∧ t = ['[', a, b, ':', c, d, '.'] ++ ds ++ [']'])

theorem matchTagAt_nil : matchTagAt [] = none := rfl

theorem matchTagAt_sound {l t r : List Char} (h : matchTagAt l = some (t, r)) :
    TagShape t ∧ ∃ rr, l = t ++ rr ∧ r = rr.takeWhile (fun c => !isLineTerm c) := by
  match l with
  | [] => simp [matchTagAt] at h
  | [l0] => simp [matchTagAt] at h
  | [l0, l1] => simp [matchTagAt] at h
  | [l0, l1, l2] => simp [matchTagAt] at h
  | [l0, l1, l2, l3] => simp [matchTagAt] at h
  | [l0, l1, l2, l3, l4] => simp [matchTagAt] at h
  | [l0, l1, l2, l3, l4, l5] => simp [matchTagAt] at h
  | l0 :: l1 :: l2 :: l3 :: l4 :: l5 :: r0 :: rr =>
    rw [matchTagAt] at h
    split at h
    next hdig =>
      obtain ⟨h0, h1, h2, h3, h4, h5⟩ := hdig
      subst h0; subst h3
      by_cases h9 : r0 = ']'
      · subst h9
        rw [if_pos rfl] at h
        simp only [Option.some.injEq, Prod.mk.injEq] at h
        obtain ⟨rfl, rfl⟩ := h
        constructor
        · exact Or.inl ⟨l1, l2, l4, l5, ⟨h1, h2, h4, h5⟩, rfl⟩
        · exact ⟨rr, rfl, rfl⟩
      · rw [if_neg h9] at h
        by_cases h8 : r0 = '.'
        · subst h8
          rw [if_pos rfl] at h
          simp only at h
          split at h
          next hds =>
            obtain ⟨hne, hhead⟩ := hds
            simp only [Option.some.injEq, Prod.mk.injEq] at h
            obtain ⟨rfl, rfl⟩ := h
            set tw := rr.takeWhile Char.isDigit with htw
            set ds := tw.take 3 with hds3
            have hdrop : rr = ds ++ rr.drop ds.length := by
              have e1 : ds ++ tw.drop 3 = tw := List.take_append_drop 3 tw
              have e2 : tw ++ rr.dropWhile Char.isDigit = rr :=
                List.takeWhile_append_dropWhile Char.isDigit rr
              have e3 : rr = ds ++ (tw.drop 3 ++ rr.dropWhile Char.isDigit) := by
                rw [← List.append_assoc, e1, e2]
              rw [e3, List.drop_left]
            have hcons : rr.drop ds.length = ']' :: (rr.drop ds.length).tail := by
              cases hc : rr.drop ds.length with
              | nil => rw [hc] at hhead; simp at hhead
              | cons x xs =>
                rw [hc] at hhead
                simp only [List.head?_cons, Option.some.injEq] at hhead
                subst hhead
                simp
            constructor
            · refine Or.inr ⟨l1, l2, l4, l5, ds, ⟨h1, h2, h4, h5⟩, hne, ?_, ?_, rfl⟩
              · rw [hds3, List.length_take]
                omega
              · intro x hx
                exact List.mem_takeWhile_imp (List.mem_of_mem_take hx)
            · refine ⟨(rr.drop ds.length).tail, ?_, rfl⟩
              show '[' :: l1 :: l2 :: ':' :: l4 :: l5 :: '.' :: rr
                = (['[', l1, l2, ':', l4, l5, '.'] ++ ds ++ [']']) ++ (rr.drop ds.length).tail
              conv_lhs => rw [hdrop]
              conv_rhs => rw [List.append_assoc, List.append_assoc]
              simp only [List.cons_append, List.nil_append]
              rw [← hcons]
          next => simp at h
        · rw [if_neg h8] at h
          simp at h
    next => simp at h



theorem matchTagAt_of_shape {t : List Char} (hT : TagShape t) (r : List Char)
    (hr : ∀ c ∈ r, isLineTerm c = false) :
    matchTagAt (t ++ r) = some (t, r) := by
  have htws : r.takeWhile (fun c => !isLineTerm c) = r :=
    List.takeWhile_eq_self_iff.mpr (fun c hcc => by simp [hr c hcc])
  rcases hT with ⟨a, b, c, d, ⟨ha, hb, hc, hd⟩, rfl⟩ |
    ⟨a, b, c, d, ds, ⟨ha, hb, hc, hd⟩, hne, hlen, hdig, rfl⟩
  · show matchTagAt ('[' :: a :: b :: ':' :: c :: d :: ']' :: r) = _
    rw [matchTagAt]
    rw [if_pos ⟨rfl, ha, hb, rfl, hc, hd⟩]
    rw [if_pos rfl, htws]
  · have hsh : (['[', a, b, ':', c, d, '.'] ++ ds ++ [']']) ++ r
      = '[' :: a :: b :: ':' :: c :: d :: '.' :: (ds ++ ']' :: r) := by
      simp
    rw [hsh, matchTagAt]
    rw [if_pos ⟨rfl, ha, hb, rfl, hc, hd⟩]
    have h9 : ¬ ('.' : Char) = ']' := by decide
    rw [if_neg h9, if_pos rfl]
    have htw : (ds ++ ']' :: r).takeWhile Char.isDigit = ds := by
      rw [List.takeWhile_append_of_pos hdig]
      have hcl : (']' :: r).takeWhile Char.isDigit = [] := by
        rw [List.takeWhile_cons]
        simp
      rw [hcl, List.append_nil]
    simp only [htw, List.take_of_length_le hlen]
    have hdrop : (ds ++ ']' :: r).drop ds.length = ']' :: r := List.drop_left ds (']' :: r)
    rw [if_pos ⟨hne, by rw [hdrop]; simp⟩]
    rw [hdrop]
    simp [htws]

theorem findTag_of_matchTagAt {l : List Char} {p : List Char × List Char}
    (h : matchTagAt l = some p) : findTag l = some p := by
  cases l with
  | nil => rw [matchTagAt_nil] at h; exact absurd h (by simp)
  | cons c tl =>
    rw [findTag, h]

theorem findTag_sound {l t r : List Char} (h : findTag l = some (t, r)) :
    TagShape t ∧ ∃ pre rr, l = pre ++ t ++ rr
      ∧ r = rr.takeWhile (fun c => !isLineTerm c) := by
  induction l with
  | nil => simp [findTag] at h
  | cons c tl ih =>
    rw [findTag] at h
    cases hm : matchTagAt (c :: tl) with
    | some p =>
      rw [hm] at h
      simp only [Option.some.injEq] at h
      subst h
      obtain ⟨hshape, rr, heq, hr⟩ := matchTagAt_sound hm
      exact ⟨hshape, [], rr, by simpa using heq, hr⟩
    | none =>
      rw [hm] at h
      obtain ⟨hshape, pre, rr, heq, hr⟩ := ih h
      exact ⟨hshape, c :: pre, rr, by simp [heq], hr⟩

theorem findTag_append_of_no_match {p s : List Char}
    (h : ∀ k, k < p.length → matchTagAt ((p ++ s).drop k) = none) :
    findTag (p ++ s) = findTag s := by
  induction p with
  | nil => simp
  | cons c p' ih =>
    rw [List.cons_append, findTag]
    have h0 := h 0 (by simp)
    simp only [List.drop_zero, List.cons_append] at h0
    rw [h0]
    exact ih (fun k hk => by
      have := h (k + 1) (by simp; omega)
      simpa using this)

/-! ### Lemmas about `processLine` and `parseLrc` -/

theorem trimRight_sublist (l : List Char) : (trimRight l).Sublist l := by
  have := (List.dropWhile_sublist (l := l.reverse) isWs).reverse
  simpa [trimRight] using this

theorem jsTrim_sublist (l : List Char) : (jsTrim l).Sublist l := by
  have h1 : (trimLeft l).Sublist l := List.dropWhile_sublist isWs
  have h2 : (trimRight (trimLeft l)).Sublist (trimLeft l) := by
    have := (List.dropWhile_sublist (l := (trimLeft l).reverse) isWs).reverse
    simpa [trimRight] using this
  exact h2.trans h1

theorem TagShape.head?_eq {t : List Char} (hT : TagShape t) : t.head? = some '[' := by
  rcases hT with ⟨a, b, c, d, _, rfl⟩ | ⟨a, b, c, d, ds, _, _, _, _, rfl⟩ <;> rfl

theorem TagShape.getLast?_eq {t : List Char} (hT : TagShape t) : t.getLast? = some ']' := by
  rcases hT with ⟨a, b, c, d, _, rfl⟩ | ⟨a, b, c, d, ds, _, _, _, _, rfl⟩
  · rfl
  · rw [List.append_assoc, List.getLast?_append]
    simp

theorem TagShape.ne_nil {t : List Char} (hT : TagShape t) : t ≠ [] := by
  rcases hT with ⟨a, b, c, d, _, rfl⟩ | ⟨a, b, c, d, ds, _, _, _, _, rfl⟩ <;> simp

theorem TagShape.no_newline {t : List Char} (hT : TagShape t) : '\n' ∉ t := by
  rcases hT with ⟨a, b, c, d, ⟨ha, hb, hc, hd⟩, rfl⟩ |
    ⟨a, b, c, d, ds, ⟨ha, hb, hc, hd⟩, _, _, hdig, rfl⟩
  · intro hmem
    simp only [List.mem_cons, List.not_mem_nil, or_false] at hmem
    rcases hmem with h | h | h | h | h | h | h <;>
      first
        | exact absurd h.symm (by decide)
        | (subst h; simp [Char.isDigit] at ha hb hc hd)
  · intro hmem
    simp only [List.append_assoc, List.cons_append, List.nil_append, List.mem_cons,
      List.mem_append, List.mem_singleton] at hmem
    rcases hmem with h | h | h | h | h | h | h | h | h
    · exact absurd h.symm (by decide)
    · subst h; simp [Char.isDigit] at ha
    · subst h; simp [Char.isDigit] at hb
    · exact absurd h.symm (by decide)
    · subst h; simp [Char.isDigit] at hc
    · subst h; simp [Char.isDigit] at hd
    · exact absurd h.symm (by decide)
    · have := hdig _ h
      simp [Char.isDigit] at this
    · exact absurd h.symm (by decide)

theorem TagShape.head_not_ws {t : List Char} (hT : TagShape t) :
    ∀ c, t.head? = some c → isWs c = false := by
  intro c hcc
  rw [hT.head?_eq] at hcc
  simp only [Option.some.injEq] at hcc
  subst hcc
  decide

theorem TagShape.getLast_not_ws {t : List Char} (hT : TagShape t) :
    ∀ c, t.getLast? = some c → isWs c = false := by
  intro c hcc
  rw [hT.getLast?_eq] at hcc
  simp only [Option.some.injEq] at hcc
  subst hcc
  decide

theorem processLine_render {y : List Char} {x : Line}
    (h : processLine y = some x) : processLine (render x) = some x := by
  rw [processLine] at h
  cases hf : findTag (jsTrim y) with
  | none => rw [hf] at h; simp at h
  | some p =>
    obtain ⟨tag, rest⟩ := p
    rw [hf] at h
    simp only [Option.some.injEq] at h
    subst h
    obtain ⟨hshape, pre, rr, hdec, hr⟩ := findTag_sound hf
    have hterm : ∀ c ∈ jsTrim rest, isLineTerm c = false := by
      intro c hcc
      have h1 : c ∈ rest := List.Sublist.mem hcc (jsTrim_sublist rest)
      rw [hr] at h1
      have := List.mem_takeWhile_imp h1
      simpa using this
    show processLine (tag ++ jsTrim rest) = _
    have htrim : jsTrim (tag ++ jsTrim rest) = tag ++ jsTrim rest := by
      rw [jsTrim_append hshape.ne_nil hshape.head_not_ws hshape.getLast_not_ws]
      rw [jsTrim, trimRight_idem]
    rw [processLine, htrim,
      findTag_of_matchTagAt (matchTagAt_of_shape hshape (jsTrim rest) hterm)]
    simp [jsTrim_idem]

theorem processLine_no_newline {y : List Char} {x : Line}
    (h : processLine y = some x) (hy : '\n' ∉ y) : '\n' ∉ render x := by
  rw [processLine] at h
  cases hf : findTag (jsTrim y) with
  | none => rw [hf] at h; simp at h
  | some p =>
    obtain ⟨tag, rest⟩ := p
    rw [hf] at h
    simp only [Option.some.injEq] at h
    subst h
    obtain ⟨_, pre, rr, hdec, hr⟩ := findTag_sound hf
    intro hmem
    rcases List.mem_append.mp hmem with hmem | hmem
    · have h1 : '\n' ∈ jsTrim y := by
        rw [hdec]
        exact List.mem_append.mpr (Or.inl (List.mem_append.mpr (Or.inr hmem)))
      exact hy (List.Sublist.mem h1 (jsTrim_sublist y))
    · have h0 : '\n' ∈ rest := List.Sublist.mem hmem (jsTrim_sublist rest)
      have h00 : '\n' ∈ rr := by
        rw [hr] at h0
        exact List.Sublist.mem h0 (List.takeWhile_sublist _)
      have h1 : '\n' ∈ jsTrim y := by
        rw [hdec, List.append_assoc]
        exact List.mem_append.mpr (Or.inr (List.mem_append.mpr (Or.inr h00)))
      exact hy (List.Sublist.mem h1 (jsTrim_sublist y))

theorem processLine_render_ne_nil {y : List Char} {x : Line}
    (h : processLine y = some x) : render x ≠ [] := by
  rw [processLine] at h
  cases hf : findTag (jsTrim y) with
  | none => rw [hf] at h; simp at h
  | some p =>
    obtain ⟨tag, rest⟩ := p
    rw [hf] at h
    simp only [Option.some.injEq] at h
    subst h
    obtain ⟨hshape, _⟩ := findTag_sound hf
    show tag ++ jsTrim rest ≠ []
    simp [hshape.ne_nil]

theorem filterMap_processLine_map_render {P : List Line}
    (h : ∀ x ∈ P, processLine (render x) = some x) :
    (P.map render).filterMap processLine = P := by
  induction P with
  | nil => rfl
  | cons p ps ih =>
    rw [List.map_cons, List.filterMap_cons, h p (by simp)]
    rw [ih (fun x hx => h x (List.mem_cons_of_mem p hx))]

theorem lineLe_trans : ∀ a b c : Line,
    lineLe a b = true → lineLe b c = true → lineLe a c = true := by
  intro a b c hab hbc
  simp only [lineLe, decide_eq_true_eq] at *
  exact le_trans hab hbc

theorem lineLe_total : ∀ a b : Line, (lineLe a b || lineLe b a) = true := by
  intro a b
  simp only [lineLe, Bool.or_eq_true, decide_eq_true_eq]
  exact le_total a.timestamp b.timestamp

theorem jsInsert_perm (x : Line) (L : List Line) : (jsInsert x L).Perm (x :: L) := by
  induction L with
  | nil => rfl
  | cons y ys ih =>
    rw [jsInsert]
    by_cases hle : lineLe x y
    · rw [if_pos hle]
    · rw [if_neg hle]
      exact (ih.cons y).trans (List.Perm.swap x y ys)

theorem jsSort_perm (L : List Line) : (jsSort L).Perm L := by
  induction L with
  | nil => rfl
  | cons x xs ih =>
    rw [jsSort]
    exact (jsInsert_perm x (jsSort xs)).trans (ih.cons x)

theorem mem_jsSort {x : Line} {L : List Line} : x ∈ jsSort L ↔ x ∈ L :=
  (jsSort_perm L).mem_iff

theorem jsInsert_sorted {x : Line} {L : List Line}
    (hs : L.Pairwise (fun a b => lineLe a b = true)) :
    (jsInsert x L).Pairwise (fun a b => lineLe a b = true) := by
  induction L with
  | nil => simp [jsInsert]
  | cons y ys ih =>
    rw [jsInsert]
    rcases List.pairwise_cons.mp hs with ⟨hy, hys⟩
    by_cases hle : lineLe x y
    · rw [if_pos hle]
      refine List.pairwise_cons.mpr ⟨?_, hs⟩
      intro z hz
      rcases List.mem_cons.mp hz with rfl | hz
      · exact hle
      · exact lineLe_trans x y z hle (hy z hz)
    · rw [if_neg hle]
      have hyx : lineLe y x = true := by
        have := lineLe_total x y
        rcases Bool.or_eq_true_iff.mp this with h1 | h1
        · exact absurd h1 hle
        · exact h1
      refine List.pairwise_cons.mpr ⟨?_, ih hys⟩
      intro z hz
      have : z ∈ x :: ys := (jsInsert_perm x ys).mem_iff.mp hz
      rcases List.mem_cons.mp this with rfl | hz'
      · exact hyx
      · exact hy z hz'

theorem jsSort_sorted (L : List Line) :
    (jsSort L).Pairwise (fun a b => lineLe a b = true) := by
  induction L with
  | nil => simp [jsSort]
  | cons x xs ih =>
    rw [jsSort]
    exact jsInsert_sorted ih

theorem jsSort_of_sorted {L : List Line}
    (hs : L.Pairwise (fun a b => lineLe a b = true)) : jsSort L = L := by
  induction L with
  | nil => rfl
  | cons x xs ih =>
    rcases List.pairwise_cons.mp hs with ⟨hx, hxs⟩
    rw [jsSort, ih hxs]
    cases xs with
    | nil => rfl
    | cons y ys =>
      rw [jsInsert, if_pos (hx y (by simp))]

theorem filter_jsInsert_pos {x : Line} {t : ℚ} (hx : x.timestamp = t) (L : List Line) :
    (jsInsert x L).filter (fun l => decide (l.timestamp = t))
      = x :: L.filter (fun l => decide (l.timestamp = t)) := by
  induction L with
  | nil => simp [jsInsert, List.filter, hx]
  | cons y ys ih =>
    rw [jsInsert]
    by_cases hle : lineLe x y
    · rw [if_pos hle, List.filter_cons, if_pos (by simp [hx])]
    · rw [if_neg hle]
      have hyt : ¬ y.timestamp = t := by
        intro hyt
        exact hle (by simp [lineLe, hx, hyt])
      rw [List.filter_cons, if_neg (by simp [hyt]), ih, List.filter_cons,
        if_neg (by simp [hyt])]

theorem filter_jsInsert_neg {x : Line} {t : ℚ} (hx : ¬ x.timestamp = t) (L : List Line) :
    (jsInsert x L).filter (fun l => decide (l.timestamp = t))
      = L.filter (fun l => decide (l.timestamp = t)) := by
  induction L with
  | nil => simp [jsInsert, List.filter, hx]
  | cons y ys ih =>
    rw [jsInsert]
    by_cases hle : lineLe x y
    · rw [if_pos hle, List.filter_cons, if_neg (by simp [hx])]
    · rw [if_neg hle, List.filter_cons, ih, List.filter_cons]

theorem jsSort_filter_ts (F : List Line) (t : ℚ) :
    (jsSort F).filter (fun l => decide (l.timestamp = t))
      = F.filter (fun l => decide (l.timestamp = t)) := by
  induction F with
  | nil => rfl
  | cons x xs ih =>
    rw [jsSort]
    by_cases hx : x.timestamp = t
    · rw [filter_jsInsert_pos hx, ih, List.filter_cons, if_pos (by simp [hx])]
    · rw [filter_jsInsert_neg hx, ih, List.filter_cons, if_neg (by simp [hx])]

theorem parseLrc_some_eq (l : List Char) :
    parseLrc (some l) = jsSort ((splitLines l).filterMap processLine) := by
  cases l with
  | nil =>
    show ([] : List Line) = _
    simp [splitLines, splitOnChar, processLine, jsTrim, trimLeft, trimRight, findTag, jsSort]
  | cons c r => rfl

theorem parseLrc_sorted (s : Option (List Char)) :
    (parseLrc s).Pairwise (fun a b => lineLe a b = true) := by
  cases s with
  | none => simp [parseLrc]
  | some l =>
    rw [parseLrc_some_eq]
    exact jsSort_sorted _

theorem mem_parseLrc {l : List Char} {x : Line} (h : x ∈ parseLrc (some l)) :
    ∃ y ∈ splitLines l, processLine y = some x := by
  rw [parseLrc_some_eq, mem_jsSort, List.mem_filterMap] at h
  exact h

theorem parseLrc_good {s : Option (List Char)} :
    ∀ x ∈ parseLrc s, processLine (render x) = some x ∧ '\n' ∉ render x ∧ render x ≠ [] := by
  intro x hx
  cases s with
  | none => simp [parseLrc] at hx
  | some l =>
    obtain ⟨y, hy, hp⟩ := mem_parseLrc hx
    exact ⟨processLine_render hp, processLine_no_newline hp (mem_splitLines_no_newline y hy),
      processLine_render_ne_nil hp⟩

/-! ### Timestamp computation on well-shaped tags -/

theorem digit_ne_colon {x : Char} (hx : x.isDigit = true) : ¬ x = ':' := by
  intro hcc
  subst hcc
  simp [Char.isDigit] at hx

theorem digit_ne_dot {x : Char} (hx : x.isDigit = true) : ¬ x = '.' := by
  intro hcc
  subst hcc
  simp [Char.isDigit] at hx

theorem parseIntJS_digits {l : List Char} (h : ∀ x ∈ l, x.isDigit = true) :
    parseIntJS l = digitsVal l := by
  rw [parseIntJS, List.takeWhile_eq_self_iff.mpr h]

theorem tsOf_frac (m₁ m₂ s₁ s₂ : Char) (ds : List Char)
    (hm₁ : m₁.isDigit = true) (hm₂ : m₂.isDigit = true)
    (hs₁ : s₁.isDigit = true) (hs₂ : s₂.isDigit = true)
    (hne : ds ≠ []) (hdig : ∀ x ∈ ds, x.isDigit = true) :
    tsOf (['[', m₁, m₂, ':', s₁, s₂, '.'] ++ ds ++ [']'])
      = (digitsVal [m₁, m₂] : ℚ) * 60 + (digitsVal [s₁, s₂] : ℚ)
        + (digitsVal ds : ℚ) / (if ds.length = 3 then 1000 else 100) := by
  rw [tsOf]
  have hinner : ((['[', m₁, m₂, ':', s₁, s₂, '.'] ++ ds ++ [']']).drop 1).dropLast
      = [m₁, m₂] ++ ':' :: ([s₁, s₂] ++ '.' :: ds) := by
    rw [List.append_assoc, List.drop_append_of_le_length (by simp)]
    rw [show (['[', m₁, m₂, ':', s₁, s₂, '.'] : List Char).drop 1
        = [m₁, m₂, ':', s₁, s₂, '.'] from rfl]
    rw [← List.append_assoc, List.dropLast_concat]
    simp
  rw [hinner]
  have hsplit1 : splitOnChar ':' ([m₁, m₂] ++ ':' :: ([s₁, s₂] ++ '.' :: ds))
      = [m₁, m₂] :: splitOnChar ':' ([s₁, s₂] ++ '.' :: ds) := by
    refine splitOnChar_append _ ?_
    intro hmem
    rcases List.mem_cons.mp hmem with h1 | h1
    · exact digit_ne_colon hm₁ h1.symm
    · rcases List.mem_cons.mp h1 with h2 | h2
      · exact digit_ne_colon hm₂ h2.symm
      · simp at h2
  have hsplit2 : splitOnChar ':' ([s₁, s₂] ++ '.' :: ds) = [[s₁, s₂] ++ '.' :: ds] := by
    refine splitOnChar_of_not_mem ?_
    intro hmem
    rcases List.mem_append.mp hmem with h1 | h1
    · rcases List.mem_cons.mp h1 with h2 | h2
      · exact digit_ne_colon hs₁ h2.symm
      · rcases List.mem_cons.mp h2 with h3 | h3
        · exact digit_ne_colon hs₂ h3.symm
        · simp at h3
    · rcases List.mem_cons.mp h1 with h2 | h2
      · exact absurd h2.symm (by decide)
      · exact digit_ne_colon (hdig ':' h2) rfl
  have hsplit3 : splitOnChar '.' ([s₁, s₂] ++ '.' :: ds) = [s₁, s₂] :: splitOnChar '.' ds := by
    refine splitOnChar_append _ ?_
    intro hmem
    rcases List.mem_cons.mp hmem with h1 | h1
    · exact digit_ne_dot hs₁ h1.symm
    · rcases List.mem_cons.mp h1 with h2 | h2
      · exact digit_ne_dot hs₂ h2.symm
      · simp at h2
  have hsplit4 : splitOnChar '.' ds = [ds] := by
    refine splitOnChar_of_not_mem ?_
    intro hmem
    exact digit_ne_dot (hdig '.' hmem) rfl
  simp only [hsplit1, hsplit2, hsplit3, hsplit4, List.headD_cons, List.drop_succ_cons,
    List.drop_zero, List.head?_cons, Option.map_some, Option.getD_some]
  rw [if_neg hne]
  rw [parseIntJS_digits (by
      intro x hx
      rcases List.mem_cons.mp hx with rfl | hx
      · exact hm₁
      · rcases List.mem_cons.mp hx with rfl | hx
        · exact hm₂
        · simp at hx),
    parseIntJS_digits (by
      intro x hx
      rcases List.mem_cons.mp hx with rfl | hx
      · exact hs₁
      · rcases List.mem_cons.mp hx with rfl | hx
        · exact hs₂
        · simp at hx),
    parseIntJS_digits hdig]
  simp

theorem tsOf_nofrac (m₁ m₂ s₁ s₂ : Char)
    (hm₁ : m₁.isDigit = true) (hm₂ : m₂.isDigit = true)
    (hs₁ : s₁.isDigit = true) (hs₂ : s₂.isDigit = true) :
    tsOf ['[', m₁, m₂, ':', s₁, s₂, ']']
      = (digitsVal [m₁, m₂] : ℚ) * 60 + (digitsVal [s₁, s₂] : ℚ) := by
  rw [tsOf]
  have hinner : ((['[', m₁, m₂, ':', s₁, s₂, ']'] : List Char).drop 1).dropLast
      = [m₁, m₂] ++ ':' :: [s₁, s₂] := by
    rfl
  rw [hinner]
  have hsplit1 : splitOnChar ':' ([m₁, m₂] ++ ':' :: [s₁, s₂])
      = [m₁, m₂] :: splitOnChar ':' [s₁, s₂] := by
    refine splitOnChar_append _ ?_
    intro hmem
    rcases List.mem_cons.mp hmem with h1 | h1
    · exact digit_ne_colon hm₁ h1.symm
    · rcases List.mem_cons.mp h1 with h2 | h2
      · exact digit_ne_colon hm₂ h2.symm
      · simp at h2
  have hsplit2 : splitOnChar ':' [s₁, s₂] = [[s₁, s₂]] := by
    refine splitOnChar_of_not_mem ?_
    intro hmem
    rcases List.mem_cons.mp hmem with h1 | h1
    · exact digit_ne_colon hs₁ h1.symm
    · rcases List.mem_cons.mp h1 with h2 | h2
      · exact digit_ne_colon hs₂ h2.symm
      · simp at h2
  have hsplit3 : splitOnChar '.' [s₁, s₂] = [[s₁, s₂]] := by
    refine splitOnChar_of_not_mem ?_
    intro hmem
    rcases List.mem_cons.mp hmem with h1 | h1
    · exact digit_ne_dot hs₁ h1.symm
    · rcases List.mem_cons.mp h1 with h2 | h2
      · exact digit_ne_dot hs₂ h2.symm
      · simp at h2
  simp only [hsplit1, hsplit2, hsplit3, List.headD_cons, List.drop_succ_cons,
    List.drop_zero, List.head?_cons, List.head?_nil, Option.map_none, Option.getD_none,
    eq_self_iff_true, if_true]
  rw [parseIntJS_digits (by
      intro x hx
      rcases List.mem_cons.mp hx with rfl | hx
      · exact hm₁
      · rcases List.mem_cons.mp hx with rfl | hx
        · exact hm₂
        · simp at hx),
    parseIntJS_digits (by
      intro x hx
      rcases List.mem_cons.mp hx with rfl | hx
      · exact hs₁
      · rcases List.mem_cons.mp hx with rfl | hx
        · exact hs₂
        · simp at hx)]
  have h0 : parseIntJS ['0'] = 0 := by decide
  rw [h0]
  norm_num

/-- Parsing a single line that begins with a well-shaped tag yields exactly
one `Line`: the tag, its timestamp, and the trimmed remainder. -/
theorem parseLrc_single_tag {tag rest : List Char} (hT : TagShape tag)
    (hterm : ∀ c ∈ rest, isLineTerm c = false) :
    parseLrc (some (tag ++ rest)) = [⟨tsOf tag, jsTrim rest, tag⟩] := by
  have hnl : '\n' ∉ tag ++ rest := by
    intro hmem
    rcases List.mem_append.mp hmem with h1 | h1
    · exact hT.no_newline h1
    · exact absurd (hterm '\n' h1) (by decide)
  rw [parseLrc_some_eq]
  rw [show splitLines (tag ++ rest) = [tag ++ rest] from splitOnChar_of_not_mem hnl]
  have hp : processLine (tag ++ rest) = some ⟨tsOf tag, jsTrim rest, tag⟩ := by
    rw [processLine]
    have htrim : jsTrim (tag ++ rest) = tag ++ trimRight rest :=
      jsTrim_append hT.ne_nil hT.head_not_ws hT.getLast_not_ws
    rw [htrim, findTag_of_matchTagAt (matchTagAt_of_shape hT (trimRight rest)
      (fun c hcc => hterm c (List.Sublist.mem hcc (trimRight_sublist rest))))]
    simp [jsTrim_trimRight]
  rw [show List.filterMap processLine [tag ++ rest]
      = [(⟨tsOf tag, jsTrim rest, tag⟩ : Line)] by
    rw [List.filterMap_cons, hp]
    rfl]
  rfl

/-! ### Digit evaluation helpers (for concrete witnesses) -/

theorem toNat_d0 : '0'.toNat = 48 := by decide

theorem toNat_d1 : '1'.toNat = 49 := by decide

theorem toNat_d2 : '2'.toNat = 50 := by decide

theorem toNat_d3 : '3'.toNat = 51 := by decide

theorem toNat_d5 : '5'.toNat = 53 := by decide

/-! ### Claim theorems -/

/-- C1: for every document `doc` whose lines all came from a prior `parse`
call — i.e. `doc = parseLrc s` for some input `s` — re-parsing the formatted
text yields the same sequence of lines (same `timestamp`, `text`, `lrcTime`,
in the same order): `parse(format(doc))` is observably equivalent to `doc`,
because the verbatim `lrcTime` re-parses to the same timestamp. -/
theorem parse_format_roundtrip (s : Option (List Char)) :
    parseLrc (some (formatLrc (parseLrc s))) = parseLrc s := by
  cases hP : parseLrc s with
  | nil => rfl
  | cons p ps =>
    have hgood := parseLrc_good (s := s)
    rw [hP] at hgood
    have hheadne : render p ≠ [] := (hgood p (by simp)).2.2
    have hnl : ∀ x ∈ (p :: ps).map render, '\n' ∉ x := by
      intro x hx
      rw [List.mem_map] at hx
      obtain ⟨a, ha, rfl⟩ := hx
      exact (hgood a ha).2.1
    rw [parseLrc_some_eq, formatLrc]
    rw [splitLines_joinLines (by simp) hnl]
    rw [filterMap_processLine_map_render (fun x hx => (hgood x hx).1)]
    apply jsSort_of_sorted
    have := parseLrc_sorted s
    rwa [hP] at this

/-- C4: for all raw LRC text `T`, `format(parse(T))` reconstructs exactly the
recognizable tagged lines of `T` (as a permutation of the per-line matcher's
output), arranged in timestamp-ascending order, stably (lines of equal
timestamp keep their input order); splitting the formatted text recovers
line-for-line the renderings of the sorted tagged lines. -/
theorem format_parse_tagged_subset (s : List Char) :
    (parseLrc (some s)).Perm ((splitLines s).filterMap processLine)
    ∧ (parseLrc (some s)).Pairwise (fun a b => a.timestamp ≤ b.timestamp)
    ∧ (∀ t : ℚ, (parseLrc (some s)).filter (fun l => decide (l.timestamp = t))
        = ((splitLines s).filterMap processLine).filter (fun l => decide (l.timestamp = t)))
    ∧ (parseLrc (some s) ≠ [] →
        splitLines (formatLrc (parseLrc (some s))) = (parseLrc (some s)).map render) := by
  refine ⟨?_, ?_, ?_, ?_⟩
  · rw [parseLrc_some_eq]
    exact jsSort_perm _
  · refine (parseLrc_sorted (some s)).imp ?_
    intro a b hb
    simpa [lineLe, decide_eq_true_eq] using hb
  · intro t
    rw [parseLrc_some_eq]
    exact jsSort_filter_ts _ t
  · intro hne
    cases hP : parseLrc (some s) with
    | nil => exact absurd hP hne
    | cons p ps =>
      have hgood := parseLrc_good (s := some s)
      rw [hP] at hgood
      rw [formatLrc]
      refine splitLines_joinLines (by simp) ?_
      intro x hx
      rw [List.mem_map] at hx
      obtain ⟨a, ha, rfl⟩ := hx
      exact (hgood a ha).2.1

theorem format_parse_tagged_subset_witness :
    splitLines (formatLrc (parseLrc (some "[00:10] b\n[00:02] a".data)))
      = (parseLrc (some "[00:10] b\n[00:02] a".data)).map render :=
  (format_parse_tagged_subset _).2.2.2 (by
    simp +decide only [parseLrc, splitLines, splitOnChar, processLine, jsTrim, trimLeft,
      trimRight, findTag, matchTagAt, tsOf, parseIntJS, digitsVal, jsSort, jsInsert, isWs,
      List.dropWhile, List.takeWhile, List.filterMap, String.data, Char.isDigit, List.reverse,
      List.reverseAux, List.take, List.drop, List.length, List.head?, List.headD, List.tail,
      List.dropLast, List.foldl, List.append, Option.map, lineLe]
    norm_num [toNat_d0, toNat_d1, toNat_d2]
    exact List.cons_ne_nil _ _)

/-- C6: the sequence returned by `parse` is always sorted by `timestamp`
ascending under a stable sort (lines of equal timestamp keep their input
order), and in particular parsing two out-of-order lines returns `b` (5.0s)
before `a` (10.123s). -/
theorem parse_sorted_stable :
    (∀ s : Option (List Char), (parseLrc s).Pairwise (fun a b => a.timestamp ≤ b.timestamp))
    ∧ (∀ (s : List Char) (t : ℚ), (parseLrc (some s)).filter (fun l => decide (l.timestamp = t))
        = ((splitLines s).filterMap processLine).filter (fun l => decide (l.timestamp = t)))
    ∧ parseLrc (some "[00:10.123] a\n[00:05.000] b".data)
        = [⟨5, "b".data, "[00:05.000]".data⟩, ⟨(10123 : ℚ)/1000, "a".data, "[00:10.123]".data⟩] := by
  refine ⟨?_, ?_, ?_⟩
  · intro s
    refine (parseLrc_sorted s).imp ?_
    intro a b hb
    simpa [lineLe, decide_eq_true_eq] using hb
  · intro s t
    rw [parseLrc_some_eq]
    exact jsSort_filter_ts _ t
  · simp +decide only [parseLrc, splitLines, splitOnChar, processLine, jsTrim, trimLeft,
      trimRight, findTag, matchTagAt, tsOf, parseIntJS, digitsVal, jsSort, jsInsert, isWs,
      List.dropWhile, List.takeWhile, List.filterMap, String.data, Char.isDigit, List.reverse,
      List.reverseAux, List.take, List.drop, List.length, List.head?, List.headD, List.tail,
      List.dropLast, List.foldl, List.append, Line.mk.injEq, List.cons.injEq, Option.map, lineLe]
    norm_num [toNat_d0, toNat_d1, toNat_d2, toNat_d3, toNat_d5]

/-- C7: `parse` never fails: `null` and empty input give the empty sequence,
a line with no recognizable tag is dropped silently, and any input all of
whose lines fail the matcher parses to the empty sequence. -/
theorem parse_malformed_silent :
    parseLrc none = []
    ∧ parseLrc (some []) = []
    ∧ parseLrc (some "no tag here".data) = []
    ∧ ∀ s : List Char, (∀ y ∈ splitLines s, processLine y = none) → parseLrc (some s) = [] := by
  refine ⟨rfl, rfl, ?_, ?_⟩
  · simp +decide only [parseLrc, splitLines, splitOnChar, processLine, jsTrim, trimLeft,
      trimRight, findTag, matchTagAt, tsOf, parseIntJS, digitsVal, jsSort, jsInsert, isWs,
      List.dropWhile, List.takeWhile, List.filterMap, String.data, Char.isDigit, List.reverse,
      List.reverseAux, List.take, List.drop, List.length, List.head?, List.headD, List.tail,
      List.dropLast, List.foldl, List.append, Option.map, lineLe]
  · intro s hall
    rw [parseLrc_some_eq, List.filterMap_eq_nil_iff.mpr hall]
    rfl

theorem parse_malformed_silent_witness :
    parseLrc (some "stray metadata line".data) = [] :=
  parse_malformed_silent.2.2.2 _ (by decide)

/-- C5: for a line whose tag is `[MM:SS]` or `[MM:SS.fff]` (1–3 fractional
digits), `parse` computes `timestampSeconds = MM*60 + SS + fractional/divisor`
with divisor 1000 exactly when the fractional part has 3 digits and 100
otherwise; a missing fractional part contributes 0. -/
theorem parse_timestamp_formula :
    (∀ (m₁ m₂ s₁ s₂ : Char) (ds rest : List Char),
      m₁.isDigit = true → m₂.isDigit = true → s₁.isDigit = true → s₂.isDigit = true →
      ds ≠ [] → ds.length ≤ 3 → (∀ x ∈ ds, x.isDigit = true) →
      (∀ c ∈ rest, isLineTerm c = false) →
      parseLrc (some ((['[', m₁, m₂, ':', s₁, s₂, '.'] ++ ds ++ [']']) ++ rest))
        = [⟨(digitsVal [m₁, m₂] : ℚ) * 60 + (digitsVal [s₁, s₂] : ℚ)
              + (digitsVal ds : ℚ) / (if ds.length = 3 then 1000 else 100),
            jsTrim rest, ['[', m₁, m₂, ':', s₁, s₂, '.'] ++ ds ++ [']']⟩])
    ∧ (∀ (m₁ m₂ s₁ s₂ : Char) (rest : List Char),
      m₁.isDigit = true → m₂.isDigit = true → s₁.isDigit = true → s₂.isDigit = true →
      (∀ c ∈ rest, isLineTerm c = false) →
      parseLrc (some (['[', m₁, m₂, ':', s₁, s₂, ']'] ++ rest))
        = [⟨(digitsVal [m₁, m₂] : ℚ) * 60 + (digitsVal [s₁, s₂] : ℚ),
            jsTrim rest, ['[', m₁, m₂, ':', s₁, s₂, ']']⟩]) := by
  constructor
  · intro m₁ m₂ s₁ s₂ ds rest hm₁ hm₂ hs₁ hs₂ hne hlen hdig hterm
    have hT : TagShape (['[', m₁, m₂, ':', s₁, s₂, '.'] ++ ds ++ [']']) :=
      Or.inr ⟨m₁, m₂, s₁, s₂, ds, ⟨hm₁, hm₂, hs₁, hs₂⟩, hne, hlen, hdig, rfl⟩
    rw [parseLrc_single_tag hT hterm]
    rw [tsOf_frac m₁ m₂ s₁ s₂ ds hm₁ hm₂ hs₁ hs₂ hne hdig]
  · intro m₁ m₂ s₁ s₂ rest hm₁ hm₂ hs₁ hs₂ hterm
    have hT : TagShape ['[', m₁, m₂, ':', s₁, s₂, ']'] :=
      Or.inl ⟨m₁, m₂, s₁, s₂, ⟨hm₁, hm₂, hs₁, hs₂⟩, rfl⟩
    rw [parseLrc_single_tag hT hterm]
    rw [tsOf_nofrac m₁ m₂ s₁ s₂ hm₁ hm₂ hs₁ hs₂]

theorem parse_timestamp_formula_witness :
    parseLrc (some "[01:02.50] hello".data)
      = [⟨(62.5 : ℚ), "hello".data, "[01:02.50]".data⟩] := by
  have h := parse_timestamp_formula.1 '0' '1' '0' '2' ['5', '0'] (' ' :: "hello".data)
    rfl rfl rfl rfl (by simp) (by simp) (by decide) (by decide)
  have e : (['[', '0', '1', ':', '0', '2', '.'] ++ ['5', '0'] ++ [']']) ++ (' ' :: "hello".data)
      = "[01:02.50] hello".data := by decide
  rw [e] at h
  rw [h]
  have e2 : jsTrim (' ' :: "hello".data) = "hello".data := by decide
  rw [e2]
  norm_num [digitsVal, toNat_d0, toNat_d1, toNat_d2, toNat_d5]

/-- C10 (implicit): the tag regex is unanchored, so a timestamp tag is
accepted anywhere in a line: if no tag match starts inside the prefix `p`,
the line `p ++ tag ++ rest` is kept, the prefix is silently discarded, and
the line's fields come from the tag and the trimmed remainder. -/
theorem parse_tag_anywhere (p tag rest : List Char)
    (hT : matchTagAt tag = some (tag, []))
    (hnp : ∀ k, k < p.length → matchTagAt ((p ++ (tag ++ rest)).drop k) = none)
    (htrim : jsTrim (p ++ (tag ++ rest)) = p ++ (tag ++ rest))
    (hterm : ∀ c ∈ rest, isLineTerm c = false)
    (hnl : '\n' ∉ p ++ (tag ++ rest)) :
    parseLrc (some (p ++ (tag ++ rest))) = [⟨tsOf tag, jsTrim rest, tag⟩] := by
  have hshape : TagShape tag := by
    have := (matchTagAt_sound hT).1
    exact this
  rw [parseLrc_some_eq]
  rw [show splitLines (p ++ (tag ++ rest)) = [p ++ (tag ++ rest)] from
    splitOnChar_of_not_mem hnl]
  have hp : processLine (p ++ (tag ++ rest)) = some ⟨tsOf tag, jsTrim rest, tag⟩ := by
    rw [processLine, htrim]
    rw [findTag_append_of_no_match hnp]
    rw [findTag_of_matchTagAt (matchTagAt_of_shape hshape rest hterm)]
  rw [show List.filterMap processLine [p ++ (tag ++ rest)]
      = [(⟨tsOf tag, jsTrim rest, tag⟩ : Line)] by
    rw [List.filterMap_cons, hp]
    rfl]
  rfl

theorem parse_tag_anywhere_witness :
    parseLrc (some "intro [00:05] hi".data) = [⟨5, "hi".data, "[00:05]".data⟩] := by
  have h := parse_tag_anywhere "intro ".data "[00:05]".data " hi".data
    (by decide) (by decide) (by decide) (by decide) (by decide)
  have e : "intro ".data ++ ("[00:05]".data ++ " hi".data) = "intro [00:05] hi".data := by
    decide
  rw [e] at h
  rw [h]
  have e2 : jsTrim " hi".data = "hi".data := by decide
  rw [e2]
  have e3 : tsOf "[00:05]".data = 5 := by
    have := tsOf_nofrac '0' '0' '0' '5' rfl rfl rfl rfl
    have e4 : (['[', '0', '0', ':', '0', '5', ']'] : List Char) = "[00:05]".data := by decide
    rw [e4] at this
    rw [this]
    norm_num [digitsVal, toNat_d0, toNat_d5]
  rw [e3]

/-! ### Lemmas about the transcription client -/

theorem transcribeGo_succ (resp : ℕ → FetchResult) (jitter : ℕ → ℚ) (maxR n i : ℕ) :
    transcribeGo resp jitter maxR (n + 1) i
      = match attemptStep (resp i) (n == 0) with
        | .success t => ⟨.ok t, 1, []⟩
        | .retry429 =>
          let r := transcribeGo resp jitter maxR n (i + 1)
          ⟨r.outcome, r.attempts + 1, ((2 : ℚ) ^ i * 1000 + jitter i) :: r.delays⟩
        | .throwErr m =>
          if n == 0 then ⟨.error (wrapFail maxR m), 1, []⟩
          else
            let r := transcribeGo resp jitter maxR n (i + 1)
            ⟨r.outcome, r.attempts + 1, r.delays⟩ := rfl

theorem transcribeAudio_eq (resp : ℕ → FetchResult) (jitter : ℕ → ℚ) (maxR : ℕ) :
    transcribeAudio resp jitter maxR = transcribeGo resp jitter maxR maxR 0 := rfl

/-- If every attempt throws the same error message, the loop swallows it on
every non-final attempt and wraps it on the final one. -/
theorem go_throw_const {resp : ℕ → FetchResult} {jitter : ℕ → ℚ} {maxR : ℕ}
    {m : List Char} (hall : ∀ j last, attemptStep (resp j) last = .throwErr m) :
    ∀ n i, transcribeGo resp jitter maxR (n + 1) i
      = ⟨.error (wrapFail maxR m), n + 1, []⟩ := by
  intro n
  induction n with
  | zero =>
    intro i
    rw [transcribeGo_succ, show ((0 : ℕ) == 0) = true from rfl, hall i true]
    rfl
  | succ k ih =>
    intro i
    rw [transcribeGo_succ, hall i ((k + 1) == 0),
      show ((k + 1 : ℕ) == 0) = false from by simp]
    simp only [Bool.false_eq_true, if_false]
    simp [ih (i + 1)]

/-- One loop unfolding per `attemptStep` result: a successful attempt
returns at once. -/
theorem go_step_success (resp : ℕ → FetchResult) (jitter : ℕ → ℚ) (maxR n i : ℕ)
    {t : List Char} (h : attemptStep (resp i) (n == 0) = .success t) :
    transcribeGo resp jitter maxR (n + 1) i = ⟨.ok t, 1, []⟩ := by
  rw [transcribeGo_succ, h]

/-- One loop unfolding: a 429 on a non-final attempt sleeps
`2^i * 1000 + jitter i` and continues with the next attempt. -/
theorem go_step_retry (resp : ℕ → FetchResult) (jitter : ℕ → ℚ) (maxR n i : ℕ)
    (h : attemptStep (resp i) (n == 0) = .retry429) :
    transcribeGo resp jitter maxR (n + 1) i
      = ⟨(transcribeGo resp jitter maxR n (i + 1)).outcome,
         (transcribeGo resp jitter maxR n (i + 1)).attempts + 1,
         ((2 : ℚ) ^ i * 1000 + jitter i) :: (transcribeGo resp jitter maxR n (i + 1)).delays⟩ := by
  rw [transcribeGo_succ, h]

/-- One loop unfolding: an error on a non-final attempt is swallowed by the
`catch` and the next attempt starts immediately, with no delay recorded. -/
theorem go_step_swallow (resp : ℕ → FetchResult) (jitter : ℕ → ℚ) (maxR n i : ℕ)
    {m : List Char} (hn : ¬ n = 0) (h : attemptStep (resp i) (n == 0) = .throwErr m) :
    transcribeGo resp jitter maxR (n + 1) i
      = ⟨(transcribeGo resp jitter maxR n (i + 1)).outcome,
         (transcribeGo resp jitter maxR n (i + 1)).attempts + 1,
         (transcribeGo resp jitter maxR n (i + 1)).delays⟩ := by
  rw [transcribeGo_succ, h, show (n == 0) = false from by simpa using hn]
  simp

/-- One loop unfolding: an error on the final attempt is rethrown wrapped. -/
theorem go_step_throw_last (resp : ℕ → FetchResult) (jitter : ℕ → ℚ) (maxR i : ℕ)
    {m : List Char} (h : attemptStep (resp i) true = .throwErr m) :
    transcribeGo resp jitter maxR 1 i = ⟨.error (wrapFail maxR m), 1, []⟩ := by
  rw [show (1 : ℕ) = 0 + 1 from rfl, transcribeGo_succ,
    show ((0 : ℕ) == 0) = true from rfl, h]
  rfl

/-- A response whose status is not 429 never triggers the backoff branch. -/
def is429 : FetchResult → Prop
  | .netError _ => False
  | .response st _ _ => st = 429

theorem attemptStep_ne_retry {r : FetchResult} (h : ¬ is429 r) :
    ∀ last, attemptStep r last ≠ .retry429 := by
  intro last
  cases r with
  | netError m => simp [attemptStep]
  | response st em tx =>
    rw [attemptStep]
    have h429 : ¬ st = 429 := h
    rw [if_neg (by simp [h429])]
    split
    · simp
    · split
      · simp
      · simp

theorem go_no429_delays {resp : ℕ → FetchResult} {jitter : ℕ → ℚ} {maxR : ℕ}
    (hall : ∀ j, ¬ is429 (resp j)) :
    ∀ n i, (transcribeGo resp jitter maxR n i).delays = [] := by
  intro n
  induction n with
  | zero => intro i; rfl
  | succ k ih =>
    intro i
    rw [transcribeGo_succ]
    cases hstep : attemptStep (resp i) (k == 0) with
    | retry429 => exact absurd hstep (attemptStep_ne_retry (hall i) _)
    | success t => rfl
    | throwErr m =>
      by_cases hk : (k == 0 : Bool)
      · simp only [hk, if_true]
      · simp only [hk, Bool.false_eq_true, if_false]
        simp [ih (i + 1)]

/-- C2 counterexample endpoint: attempt 0 answers HTTP 500 with message
`boom`; every later attempt succeeds with text `[00:02] ok`. -/
def c2Resp : ℕ → FetchResult := fun i =>
  if i = 0 then .response 500 (some "boom".data) none
  else .response 200 none (some "[00:02] ok".data)

/-- C2, counterexample to the claim as stated: with an endpoint whose first
response is a non-rate-limit error (HTTP 500, message `boom`),
`transcribeAudio(…, 5)` does NOT fail immediately with the remote message:
the error is swallowed, a second attempt is made, and the call returns the
second attempt's success text after 2 attempts. -/
theorem transcribe_nonratelimit_cex :
    transcribeAudio c2Resp (fun _ => 0) 5
        = ⟨.ok "[00:02] ok".data, 2, []⟩
    ∧ (transcribeAudio c2Resp (fun _ => 0) 5).outcome ≠ .error "boom".data
    ∧ (transcribeAudio c2Resp (fun _ => 0) 5).attempts ≠ 1 := by
  have s1 : attemptStep (c2Resp 1) ((3 : ℕ) == 0)
      = .success (jsTrim (stripFences "[00:02] ok".data)) := by
    rw [show c2Resp 1 = .response 200 none (some "[00:02] ok".data) from rfl, attemptStep]
    simp [statusOk]
  have hclean : jsTrim (stripFences "[00:02] ok".data) = "[00:02] ok".data := by
    simp +decide [stripFences, matchFenceAt, fenceLrc, fence3, countWs, isWs,
      List.takeWhile, List.take, List.drop, String.data, jsTrim, trimLeft, trimRight,
      List.dropWhile, List.reverse, List.reverseAux]
  have g1 : transcribeGo c2Resp (fun _ => 0) 5 4 1 = ⟨.ok "[00:02] ok".data, 1, []⟩ := by
    have := go_step_success c2Resp (fun _ => 0) 5 3 1 s1
    rw [hclean] at this
    exact this
  have s0 : attemptStep (c2Resp 0) ((4 : ℕ) == 0) = .throwErr "boom".data := by
    rw [show c2Resp 0 = .response 500 (some "boom".data) none from rfl, attemptStep]
    simp [statusOk]
  have g0 : transcribeAudio c2Resp (fun _ => 0) 5 = ⟨.ok "[00:02] ok".data, 2, []⟩ := by
    rw [transcribeAudio_eq]
    have hsw := go_step_swallow c2Resp (fun _ => 0) 5 4 0 (by norm_num) s0
    rw [g1] at hsw
    exact hsw
  refine ⟨g0, ?_, ?_⟩
  · rw [g0]
    simp
  · rw [g0]
    simp

/-- C2 amended: a non-rate-limit error response is not retried **with
backoff**, but its error is swallowed on every attempt before the last and
the loop immediately moves to the next attempt; only when it occurs on the
last attempt does the call fail, with the remote-supplied message (when
available) embedded in the failure message.  No partial result and no delay
is ever produced. -/
theorem transcribe_nonratelimit_amended :
    ∀ (resp : ℕ → FetchResult) (jitter : ℕ → ℚ) (maxR st : ℕ) (em : List Char),
      1 ≤ maxR → ¬ st = 429 → statusOk st = false →
      (∀ i, resp i = .response st (some em) none) →
      transcribeAudio resp jitter maxR = ⟨.error (wrapFail maxR em), maxR, []⟩ := by
  intro resp jitter maxR st em hmax h429 hok hresp
  have hall : ∀ j last, attemptStep (resp j) last = .throwErr em := by
    intro j last
    rw [hresp j, attemptStep]
    simp [h429, hok]
  cases maxR with
  | zero => exact absurd hmax (by simp)
  | succ k =>
    rw [transcribeAudio_eq, go_throw_const hall k 0]

theorem transcribe_nonratelimit_amended_witness :
    transcribeAudio (fun _ => .response 500 (some "boom".data) none) (fun _ => 0) 2
      = ⟨.error (wrapFail 2 "boom".data), 2, []⟩ :=
  transcribe_nonratelimit_amended _ _ 2 500 "boom".data (by norm_num) (by norm_num)
    (by decide) (fun i => rfl)

/-- C8: when every response is well-formed (HTTP 200) but carries no usable
text (`text` absent or empty), the call fails with the fixed
"empty model response" message wrapped in the final failure — a condition
distinct from the default message of any HTTP-status failure (in particular
a rate-limit failure) and from the no-attempt failure. -/
theorem transcribe_empty_response :
    ∀ (resp : ℕ → FetchResult) (jitter : ℕ → ℚ) (maxR : ℕ),
      1 ≤ maxR →
      (∀ i, resp i = .response 200 none none ∨ resp i = .response 200 none (some [])) →
      transcribeAudio resp jitter maxR = ⟨.error (wrapFail maxR emptyMsg), maxR, []⟩
      ∧ (∀ st : ℕ, wrapFail maxR emptyMsg ≠ wrapFail maxR (statusFailMsg st))
      ∧ wrapFail maxR emptyMsg ≠ unknownMsg := by
  intro resp jitter maxR hmax hresp
  refine ⟨?_, ?_, ?_⟩
  · have hall : ∀ j last, attemptStep (resp j) last = .throwErr emptyMsg := by
      intro j last
      rcases hresp j with h | h <;>
        · rw [h, attemptStep]
          simp [statusOk]
    cases maxR with
    | zero => exact absurd hmax (by simp)
    | succ k => rw [transcribeAudio_eq, go_throw_const hall k 0]
  · intro st heq
    have hcancel : emptyMsg = statusFailMsg st := by
      rw [wrapFail, wrapFail] at heq
      exact List.append_cancel_left heq
    have hhead : emptyMsg.head? = (statusFailMsg st).head? := by rw [hcancel]
    have e1 : emptyMsg.head? = some 'R' := rfl
    have e2 : (statusFailMsg st).head? = some 'A' := by
      rw [statusFailMsg,
        List.head?_append_of_ne_nil "API request failed with status ".data (by decide)]
      rfl
    rw [e1, e2] at hhead
    simp at hhead
  · intro heq
    have hhead : (wrapFail maxR emptyMsg).head? = unknownMsg.head? := by rw [heq]
    have e1 : (wrapFail maxR emptyMsg).head? = some 'F' := by
      rw [wrapFail]
      simp [List.head?_append,
        show ("Failed to transcribe audio after ".data : List Char).head? = some 'F' from rfl]
    have e2 : unknownMsg.head? = some 'U' := rfl
    rw [e1, e2] at hhead
    simp at hhead

theorem transcribe_empty_response_witness :
    transcribeAudio (fun _ => .response 200 none none) (fun _ => 0) 3
      = ⟨.error (wrapFail 3 emptyMsg), 3, []⟩
    ∧ wrapFail 3 emptyMsg ≠ wrapFail 3 (statusFailMsg 429) := by
  have h := transcribe_empty_response (fun _ => .response 200 none none) (fun _ => 0) 3
    (by norm_num) (fun i => Or.inl rfl)
  exact ⟨h.1, h.2.1 429⟩

/-- C3: the loop waits `2^attempt * 1000 ms + jitter` (attempt 0-indexed,
jitter drawn in `[0, 1000)`) before a retry, and sleeps only for rate-limit
responses: with an endpoint answering 429 twice then succeeding,
`transcribe(request, 5)` returns the (cleaned) success text on the 3rd
attempt after exactly the two delays `1000 + jitter 0` and `2000 + jitter 1`;
with an endpoint always answering 429, `transcribe(request, 3)` fails with
the retries-exhausted message after exactly 3 attempts; and with no 429
response at all, no delay is ever taken. -/
theorem transcribe_retry_backoff :
    (∀ (resp : ℕ → FetchResult) (jitter : ℕ → ℚ) (em₀ em₁ tx₀ tx₁ : Option (List Char))
        (t : List Char),
      resp 0 = .response 429 em₀ tx₀ →
      resp 1 = .response 429 em₁ tx₁ →
      resp 2 = .response 200 none (some t) → ¬ t = [] →
      transcribeAudio resp jitter 5
        = ⟨.ok (jsTrim (stripFences t)), 3,
           [(2 : ℚ) ^ 0 * 1000 + jitter 0, (2 : ℚ) ^ 1 * 1000 + jitter 1]⟩)
    ∧ (∀ (resp : ℕ → FetchResult) (jitter : ℕ → ℚ)
        (em tx : ℕ → Option (List Char)),
      (∀ i, resp i = .response 429 (em i) (tx i)) →
      transcribeAudio resp jitter 3
        = ⟨.error (wrapFail 3 ((em 2).getD (statusFailMsg 429))), 3,
           [(2 : ℚ) ^ 0 * 1000 + jitter 0, (2 : ℚ) ^ 1 * 1000 + jitter 1]⟩)
    ∧ (∀ (resp : ℕ → FetchResult) (jitter : ℕ → ℚ) (maxR : ℕ),
      (∀ j, ¬ is429 (resp j)) → (transcribeAudio resp jitter maxR).delays = [])
    ∧ (∀ (jitter : ℕ → ℚ) (i : ℕ), 0 ≤ jitter i → jitter i < 1000 →
        (2 : ℚ) ^ i * 1000 ≤ (2 : ℚ) ^ i * 1000 + jitter i
        ∧ (2 : ℚ) ^ i * 1000 + jitter i < (2 : ℚ) ^ i * 1000 + 1000) := by
  refine ⟨?_, ?_, ?_, ?_⟩
  · intro resp jitter em₀ em₁ tx₀ tx₁ t h0 h1 h2 ht
    have s2 : attemptStep (resp 2) ((2 : ℕ) == 0) = .success (jsTrim (stripFences t)) := by
      rw [h2, attemptStep]
      simp [statusOk, ht]
    have g2 : transcribeGo resp jitter 5 3 2 = ⟨.ok (jsTrim (stripFences t)), 1, []⟩ :=
      go_step_success resp jitter 5 2 2 s2
    have s1 : attemptStep (resp 1) ((3 : ℕ) == 0) = .retry429 := by
      rw [h1, attemptStep]
      simp
    have g1 : transcribeGo resp jitter 5 4 1
        = ⟨.ok (jsTrim (stripFences t)), 2, [(2 : ℚ) ^ 1 * 1000 + jitter 1]⟩ := by
      have h' := go_step_retry resp jitter 5 3 1 s1
      rw [show transcribeGo resp jitter 5 3 (1 + 1)
          = ⟨.ok (jsTrim (stripFences t)), 1, []⟩ from g2] at h'
      simpa using h'
    have s0 : attemptStep (resp 0) ((4 : ℕ) == 0) = .retry429 := by
      rw [h0, attemptStep]
      simp
    rw [transcribeAudio_eq]
    have h' := go_step_retry resp jitter 5 4 0 s0
    rw [show transcribeGo resp jitter 5 4 (0 + 1)
        = ⟨.ok (jsTrim (stripFences t)), 2, [(2 : ℚ) ^ 1 * 1000 + jitter 1]⟩ from g1] at h'
    simpa using h'
  · intro resp jitter em tx hresp
    have s2 : attemptStep (resp 2) true
        = .throwErr ((em 2).getD (statusFailMsg 429)) := by
      rw [hresp 2, attemptStep]
      simp [statusOk]
    have g2 : transcribeGo resp jitter 3 1 2
        = ⟨.error (wrapFail 3 ((em 2).getD (statusFailMsg 429))), 1, []⟩ :=
      go_step_throw_last resp jitter 3 2 s2
    have s1 : attemptStep (resp 1) ((1 : ℕ) == 0) = .retry429 := by
      rw [hresp 1, attemptStep]
      simp
    have g1 : transcribeGo resp jitter 3 2 1
        = ⟨.error (wrapFail 3 ((em 2).getD (statusFailMsg 429))), 2,
           [(2 : ℚ) ^ 1 * 1000 + jitter 1]⟩ := by
      have h' := go_step_retry resp jitter 3 1 1 s1
      rw [show transcribeGo resp jitter 3 1 (1 + 1)
          = ⟨.error (wrapFail 3 ((em 2).getD (statusFailMsg 429))), 1, []⟩ from g2] at h'
      simpa using h'
    have s0 : attemptStep (resp 0) ((2 : ℕ) == 0) = .retry429 := by
      rw [hresp 0, attemptStep]
      simp
    rw [transcribeAudio_eq]
    have h' := go_step_retry resp jitter 3 2 0 s0
    rw [show transcribeGo resp jitter 3 2 (0 + 1)
        = ⟨.error (wrapFail 3 ((em 2).getD (statusFailMsg 429))), 2,
           [(2 : ℚ) ^ 1 * 1000 + jitter 1]⟩ from g1] at h'
    simpa using h'
  · intro resp jitter maxR hall
    rw [transcribeAudio_eq]
    exact go_no429_delays hall maxR 0
  · intro jitter i h0 h1
    constructor
    · linarith
    · linarith

theorem transcribe_retry_backoff_witness :
    transcribeAudio
        (fun i => if i < 2 then .response 429 none none else .response 200 none (some "[00:01] la".data))
        (fun _ => 500) 5
      = ⟨.ok "[00:01] la".data, 3, [1500, 2500]⟩
    ∧ transcribeAudio (fun _ => .response 429 (some "slow down".data) none) (fun _ => 500) 3
      = ⟨.error (wrapFail 3 "slow down".data), 3, [1500, 2500]⟩ := by
  constructor
  · have h := transcribe_retry_backoff.1
      (fun i => if i < 2 then .response 429 none none else .response 200 none (some "[00:01] la".data))
      (fun _ => 500) none none none none "[00:01] la".data rfl rfl rfl (by decide)
    rw [h]
    have hclean : jsTrim (stripFences "[00:01] la".data) = "[00:01] la".data := by
      simp +decide [stripFences, matchFenceAt, fenceLrc, fence3, countWs, isWs,
        List.takeWhile, List.take, List.drop, String.data, jsTrim, trimLeft, trimRight,
        List.dropWhile, List.reverse, List.reverseAux]
    rw [hclean]
    norm_num
  · have h := transcribe_retry_backoff.2.1
      (fun _ => .response 429 (some "slow down".data) none) (fun _ => 500)
      (fun _ => some "slow down".data) (fun _ => none) (fun i => rfl)
    rw [h]
    norm_num

/-! ### Fence-stripping lemmas -/

theorem stripFences_nil : stripFences [] = [] := by
  rw [stripFences]

theorem stripFences_cons_some {c : Char} {rest : List Char} {k : ℕ}
    (h : matchFenceAt (c :: rest) = some k) :
    stripFences (c :: rest) = stripFences ((c :: rest).drop k) := by
  rw [stripFences]
  split
  next k' hk' =>
    rw [h] at hk'
    simp only [Option.some.injEq] at hk'
    rw [hk']
  next hk' => rw [h] at hk'; exact absurd hk' (by simp)

theorem stripFences_cons_none {c : Char} {rest : List Char}
    (h : matchFenceAt (c :: rest) = none) :
    stripFences (c :: rest) = c :: stripFences rest := by
  rw [stripFences]
  split
  next k' hk' => rw [h] at hk'; exact absurd hk' (by simp)
  next => rfl

theorem drop_countWs (l : List Char) : l.drop (countWs l) = l.dropWhile isWs := by
  nth_rewrite 2 [← List.takeWhile_append_dropWhile isWs l]
  rw [show countWs l = (l.takeWhile isWs).length from rfl]
  exact List.drop_left _ _

theorem countWs_append_all {a : List Char} (b : List Char)
    (ha : ∀ c ∈ a, isWs c = true) : countWs (a ++ b) = a.length + countWs b := by
  rw [countWs, List.takeWhile_append_of_pos ha, List.length_append]
  rfl

theorem countWs_head_not_ws {l : List Char} {x : Char} {xs : List Char}
    (hl : l = x :: xs) (hx : isWs x = false) : countWs l = 0 := by
  rw [hl, countWs, List.takeWhile_cons, hx]
  rfl

theorem dropWhile_ws_ne_nil {l : List Char} (hne : l ≠ [])
    (hlast : ∀ c, l.getLast? = some c → isWs c = false) :
    l.dropWhile isWs ≠ [] := by
  intro hcontra
  have hall := List.dropWhile_eq_nil_iff.mp hcontra
  cases hgl : l.getLast? with
  | none => rw [List.getLast?_eq_none_iff] at hgl; exact hne hgl
  | some c =>
    have hmem : c ∈ l := List.mem_of_mem_getLast? hgl
    have h1 := hall c hmem
    have h2 := hlast c hgl
    rw [h2] at h1
    exact Bool.false_ne_true h1

theorem matchFenceAt_inner_none {inner ws2 : List Char}
    (hbt : ∀ c ∈ inner, ¬ c = Char.ofNat 96)
    (hne : inner ≠ [])
    (hlast : ∀ c, inner.getLast? = some c → isWs c = false)
    (hws2 : ∀ c ∈ ws2, isWs c = true) :
    matchFenceAt (inner ++ ws2 ++ fence3) = none := by
  obtain ⟨h, tl, rfl⟩ : ∃ h tl, inner = h :: tl := by
    cases inner with
    | nil => exact absurd rfl hne
    | cons h tl => exact ⟨h, tl, rfl⟩
  rw [matchFenceAt]
  rw [if_neg ?alt1]
  case alt1 =>
    intro htake
    rw [show (h :: tl) ++ ws2 ++ fence3 = h :: (tl ++ ws2 ++ fence3) by simp] at htake
    rw [show (h :: (tl ++ ws2 ++ fence3)).take 6
        = h :: (tl ++ ws2 ++ fence3).take 5 from rfl] at htake
    rw [show fenceLrc = Char.ofNat 96
        :: [Char.ofNat 96, Char.ofNat 96, 'l', 'r', 'c'] from rfl] at htake
    injection htake with hh _
    exact hbt h (by simp) hh
  rw [if_neg ?alt2]
  case alt2 =>
    intro htake
    have hin : (h :: tl).dropWhile isWs ≠ [] := dropWhile_ws_ne_nil (by simp) hlast
    have hdw : ((h :: tl) ++ ws2 ++ fence3).dropWhile isWs
        = ((h :: tl).dropWhile isWs) ++ (ws2 ++ fence3) := by
      rw [List.append_assoc, List.dropWhile_append]
      simp only [List.isEmpty_iff, hin, if_false]
    rw [drop_countWs, hdw] at htake
    obtain ⟨d, dl, hd⟩ : ∃ d dl, (h :: tl).dropWhile isWs = d :: dl := by
      cases hc : (h :: tl).dropWhile isWs with
      | nil => exact absurd hc hin
      | cons d dl => exact ⟨d, dl, rfl⟩
    rw [hd] at htake
    rw [show (d :: dl) ++ (ws2 ++ fence3) = d :: (dl ++ (ws2 ++ fence3)) by simp] at htake
    rw [show (d :: (dl ++ (ws2 ++ fence3))).take 3
        = d :: (dl ++ (ws2 ++ fence3)).take 2 from rfl] at htake
    rw [show fence3 = Char.ofNat 96 :: [Char.ofNat 96, Char.ofNat 96] from rfl] at htake
    injection htake with hh _
    have hdmem : d ∈ (h :: tl) :=
      List.Sublist.mem (by rw [hd]; simp) (List.dropWhile_sublist isWs)
    exact hbt d hdmem hh

theorem matchFenceAt_close {ws2 : List Char} (hws2 : ∀ c ∈ ws2, isWs c = true) :
    matchFenceAt (ws2 ++ fence3) = some (ws2.length + 3) := by
  rw [matchFenceAt]
  rw [if_neg ?alt1]
  case alt1 =>
    intro htake
    cases hw : ws2 with
    | nil =>
      rw [hw] at htake
      simp only [List.nil_append] at htake
      have hlen := congrArg List.length htake
      simp [fence3, fenceLrc] at hlen
    | cons c cs =>
      rw [hw] at htake
      rw [show (c :: cs) ++ fence3 = c :: (cs ++ fence3) by simp] at htake
      rw [show (c :: (cs ++ fence3)).take 6 = c :: (cs ++ fence3).take 5 from rfl] at htake
      rw [show fenceLrc = Char.ofNat 96
          :: [Char.ofNat 96, Char.ofNat 96, 'l', 'r', 'c'] from rfl] at htake
      injection htake with hh _
      have hc := hws2 c (by rw [hw]; simp)
      rw [hh] at hc
      exact absurd hc (by decide)
  have hcount : countWs (ws2 ++ fence3) = ws2.length := by
    rw [countWs_append_all _ hws2, countWs_head_not_ws (show fence3
      = Char.ofNat 96 :: [Char.ofNat 96, Char.ofNat 96] from rfl) (by decide)]
    omega
  rw [hcount, List.drop_left, if_pos (by rfl)]

theorem stripFences_close {ws2 : List Char} (hws2 : ∀ c ∈ ws2, isWs c = true) :
    stripFences (ws2 ++ fence3) = [] := by
  obtain ⟨c, rest, hL⟩ : ∃ c rest, ws2 ++ fence3 = c :: rest := by
    cases hc : ws2 ++ fence3 with
    | nil =>
      have := congrArg List.length hc
      simp [fence3] at this
    | cons c rest => exact ⟨c, rest, rfl⟩
  have hm := matchFenceAt_close hws2
  rw [hL] at hm
  rw [hL, stripFences_cons_some hm, ← hL]
  rw [List.drop_eq_nil_of_le (by simp [fence3])]
  exact stripFences_nil

theorem stripFences_inner {ws2 : List Char} (hws2 : ∀ c ∈ ws2, isWs c = true) :
    ∀ inner : List Char, (∀ c ∈ inner, ¬ c = Char.ofNat 96) →
      (∀ c, inner.getLast? = some c → isWs c = false) →
      stripFences (inner ++ ws2 ++ fence3) = inner := by
  intro inner
  induction inner with
  | nil =>
    intro _ _
    simpa using stripFences_close hws2
  | cons x xs ih =>
    intro hbt hlast
    have hm : matchFenceAt ((x :: xs) ++ ws2 ++ fence3) = none :=
      matchFenceAt_inner_none hbt (by simp) hlast hws2
    have hL : (x :: xs) ++ ws2 ++ fence3 = x :: (xs ++ ws2 ++ fence3) := by simp
    rw [hL] at hm
    rw [hL, stripFences_cons_none hm]
    rw [ih (fun c hc => hbt c (List.mem_cons_of_mem x hc)) ?hl]
    case hl =>
      intro c hc
      have hxs : xs ≠ [] := by
        intro hcontra
        rw [hcontra] at hc
        simp at hc
      refine hlast c ?_
      cases xs with
      | nil => exact absurd rfl hxs
      | cons y ys => rw [List.getLast?_cons_cons]; exact hc

theorem stripFences_fenced {ws1 ws2 inner : List Char}
    (hws1 : ∀ c ∈ ws1, isWs c = true) (hws2 : ∀ c ∈ ws2, isWs c = true)
    (hne : inner ≠ []) (hbt : ∀ c ∈ inner, ¬ c = Char.ofNat 96)
    (hhead : ∀ c, inner.head? = some c → isWs c = false)
    (hlast : ∀ c, inner.getLast? = some c → isWs c = false) :
    stripFences (fenceLrc ++ ws1 ++ inner ++ ws2 ++ fence3) = inner := by
  obtain ⟨h, tl, hin⟩ : ∃ h tl, inner = h :: tl := by
    cases inner with
    | nil => exact absurd rfl hne
    | cons h tl => exact ⟨h, tl, rfl⟩
  have hm : matchFenceAt (fenceLrc ++ ws1 ++ inner ++ ws2 ++ fence3)
      = some (6 + ws1.length) := by
    rw [matchFenceAt]
    have htake : (fenceLrc ++ ws1 ++ inner ++ ws2 ++ fence3).take 6 = fenceLrc := by
      rw [show fenceLrc ++ ws1 ++ inner ++ ws2 ++ fence3
        = fenceLrc ++ (ws1 ++ inner ++ ws2 ++ fence3) by simp]
      rw [show (6 : ℕ) = fenceLrc.length from rfl]
      exact List.take_left _ _
    rw [if_pos htake]
    have hdrop : (fenceLrc ++ ws1 ++ inner ++ ws2 ++ fence3).drop 6
        = ws1 ++ (inner ++ ws2 ++ fence3) := by
      rw [show fenceLrc ++ ws1 ++ inner ++ ws2 ++ fence3
        = fenceLrc ++ (ws1 ++ (inner ++ ws2 ++ fence3)) by simp]
      rw [show (6 : ℕ) = fenceLrc.length from rfl]
      exact List.drop_left fenceLrc _
    rw [hdrop, countWs_append_all _ hws1,
      countWs_head_not_ws (show inner ++ ws2 ++ fence3
        = h :: (tl ++ ws2 ++ fence3) by rw [hin]; simp)
        (hhead h (by rw [hin]; rfl))]
    simp
  obtain ⟨c, rest, hL⟩ : ∃ c rest, fenceLrc ++ ws1 ++ inner ++ ws2 ++ fence3 = c :: rest := by
    cases hc : fenceLrc ++ ws1 ++ inner ++ ws2 ++ fence3 with
    | nil =>
      have := congrArg List.length hc
      simp [fenceLrc] at this
    | cons c rest => exact ⟨c, rest, rfl⟩
  rw [hL] at hm
  rw [hL, stripFences_cons_some hm, ← hL]
  have hdropk : (fenceLrc ++ ws1 ++ inner ++ ws2 ++ fence3).drop (6 + ws1.length)
      = inner ++ ws2 ++ fence3 := by
    rw [show fenceLrc ++ ws1 ++ inner ++ ws2 ++ fence3
      = (fenceLrc ++ ws1) ++ (inner ++ ws2 ++ fence3) by simp]
    rw [show 6 + ws1.length = (fenceLrc ++ ws1).length by simp [fenceLrc]; omega]
    exact List.drop_left _ _
  rw [hdropk]
  exact stripFences_inner hws2 inner hbt hlast

/-- C9: a successful response whose text is wrapped in a fenced code block —
the three-backtick `lrc` opener, optional whitespace, the payload, optional
whitespace, a three-backtick closer — is returned as the inner text with the
fence markers removed and surrounding whitespace trimmed. -/
theorem transcribe_fence_stripped :
    ∀ (resp : ℕ → FetchResult) (jitter : ℕ → ℚ) (maxR : ℕ) (ws1 ws2 inner : List Char),
      1 ≤ maxR →
      resp 0 = .response 200 none (some (fenceLrc ++ ws1 ++ inner ++ ws2 ++ fence3)) →
      (∀ c ∈ ws1, isWs c = true) → (∀ c ∈ ws2, isWs c = true) →
      inner ≠ [] → (∀ c ∈ inner, ¬ c = Char.ofNat 96) →
      (∀ c, inner.head? = some c → isWs c = false) →
      (∀ c, inner.getLast? = some c → isWs c = false) →
      transcribeAudio resp jitter maxR = ⟨.ok inner, 1, []⟩ := by
  intro resp jitter maxR ws1 ws2 inner hmax h0 hws1 hws2 hne hbt hhead hlast
  cases maxR with
  | zero => exact absurd hmax (by simp)
  | succ k =>
    have hbig : fenceLrc ++ ws1 ++ inner ++ ws2 ++ fence3 ≠ [] := by
      simp [fenceLrc]
    have s0 : attemptStep (resp 0) ((k : ℕ) == 0) = .success inner := by
      rw [h0, attemptStep]
      rw [if_neg (by simp)]
      rw [if_neg (by simp [statusOk])]
      rw [if_neg ?tx]
      case tx =>
        intro hcontra
        rcases hcontra with hcontra | hcontra
        · exact Option.noConfusion hcontra
        · exact hbig (Option.some.inj hcontra)
      rw [show (some (fenceLrc ++ ws1 ++ inner ++ ws2 ++ fence3)).getD []
        = fenceLrc ++ ws1 ++ inner ++ ws2 ++ fence3 from rfl]
      rw [stripFences_fenced hws1 hws2 hne hbt hhead hlast]
      rw [jsTrim_eq_self hhead hlast]
    rw [transcribeAudio_eq]
    exact go_step_success resp jitter (k + 1) k 0 s0

theorem transcribe_fence_stripped_witness :
    transcribeAudio
        (fun _ => .response 200 none (some "```lrc\n[00:01] hi\n```".data))
        (fun _ => 0) 5
      = ⟨.ok "[00:01] hi".data, 1, []⟩ := by
  have h := transcribe_fence_stripped
    (fun _ => .response 200 none (some "```lrc\n[00:01] hi\n```".data))
    (fun _ => 0) 5 ['\n'] ['\n'] "[00:01] hi".data
    (by norm_num) (by decide) (by decide) (by decide) (by decide) (by decide)
    (by decide) (by decide)
  exact h

end LyricSync
